import Mathlib

/-!
Verification development for the MCDReforged core subset.

Strings of the source language are embedded as lists of characters
(`Str`), mutable objects become explicit state records, and fallible
operations return `Except` or `Option` values.  Each section embeds one
source module and is followed by the theorems about it.
-/

namespace MCDR

abbrev Str := List Char

/-! ## Command tree (mcdr/command/builder/command_node.py) -/

/-- Values stored into the parsing context dict.  `nil` embeds the source
language value None, produced by literal nodes which store nothing. -/
inductive PVal : Type where
| nil
| int (i : Int)
| str (s : Str)
deriving DecidableEq, Repr

/-- ParseResult named tuple: the parsed value and how many characters were read. -/
structure ParseRes where
  value : PVal
  charRead : Nat
deriving DecidableEq, Repr

/-- The concrete classes of CommandSyntaxError that a node parse can raise.
Modelled from the spec: the exception module itself is outside the embedded
subset; the spec lists the error families and which parse raises which. -/
inductive SynKind : Type where
| illegalArgument
| illegalLiteralArgument
| numberOutOfRange
| emptyText
deriving DecidableEq, Repr

/-- A CommandSyntaxError as raised by a parse method: kind, message and the
char_read offset used for positional reporting. -/
structure ParseErr where
  kind : SynKind
  msg : Str
  charRead : Nat
deriving DecidableEq, Repr

/-- Errors escaping the command interpreter.  A syntax error carries its
fail_position_hint once `_execute` has attached it. -/
inductive CmdError : Type where
| syn (kind : SynKind) (msg : Str) (charRead : Nat) (failPositionHint : Str)
| permissionDenied (hint : Str)
| unknownCommand (hint : Str)
| unknownArgument (hint : Str)
| unknownRootArgument (hint : Str)
deriving DecidableEq, Repr

/-- Modelled from the spec: `utils.get_element` (the utils module is outside
the embedded subset) returns the leading whitespace-bounded word of the text. -/
def getElement (t : Str) : Str := t.takeWhile (fun c => c ≠ ' ')

/-- Modelled from the spec: `utils.remove_divider_prefix` skips the leading
inter-token whitespace of the remaining suffix. -/
def removeDividers (t : Str) : Str := t.dropWhile (fun c => c = ' ')

/-- Numeric value of a digit string. -/
def digitsVal (t : Str) : Nat := t.foldl (fun acc c => acc * 10 + (c.toNat - '0'.toNat)) 0

/-- Parse a non-empty all-digit string. -/
def parseDigits (t : Str) : Option Nat :=
  if t = [] then none
  else if t.all Char.isDigit then some (digitsVal t) else none

/-- Modelled from the spec: the integer token accepted by `utils.get_int` is a
leading sign followed by digits. -/
def parseIntToken : Str → Option Int
| [] => none
| c :: rest =>
    if c = '-' then (parseDigits rest).map (fun n => -(n : Int))
    else if c = '+' then (parseDigits rest).map (fun n => (n : Int))
    else (parseDigits (c :: rest)).map (fun n => (n : Int))

/-- The parse behaviour of a node: which ArgumentNode subclass it is,
together with that subclass' own fields. -/
inductive NKind : Type where
| literal (literals : List Str)
| integer (minValue maxValue : Option Int)
| text
| quotableText (emptyAllowed : Bool)
| greedyText
deriving DecidableEq, Repr

/-- The scanning loop of QuotableText.parse, after the opening quote:
remaining characters, current index, collected characters, escaped flag. -/
def quotedParse (emptyAllowed : Bool) (full : Str) :
    Str → Nat → Str → Bool → Except ParseErr ParseRes
| [], _, _, _ => .error ⟨.illegalArgument, "Unclosed quoted string".toList, full.length⟩
| ch :: rest, i, collected, escaped =>
  if escaped then
    if ch = '\\' ∨ ch = '"' then
      quotedParse emptyAllowed full rest (i + 1) (collected ++ [ch]) false
    else .error ⟨.illegalArgument, "Illegal usage of escapes".toList, i + 1⟩
  else if ch = '\\' then quotedParse emptyAllowed full rest (i + 1) collected true
  else if ch = '"' then
    if emptyAllowed = false ∧ collected.length = 0 then
      .error ⟨.emptyText, "Empty text is not allowed".toList, i + 1⟩
    else .ok ⟨.str collected, i + 1⟩
  else quotedParse emptyAllowed full rest (i + 1) (collected ++ [ch]) false

/-- The parse method of each node variant. -/
def parseKind : NKind → Str → Except ParseErr ParseRes
| .literal ls, t =>
    let arg := getElement t
    if arg ∈ ls then .ok ⟨.nil, arg.length⟩
    else .error ⟨.illegalLiteralArgument, "Invalid Argument".toList, arg.length⟩
| .integer minValue maxValue, t =>
    let arg := getElement t
    match parseIntToken arg with
    | some value =>
        let belowMin := match minValue with | some m => decide (value < m) | none => false
        let aboveMax := match maxValue with | some m => decide (m < value) | none => false
        if belowMin || aboveMax then
          .error ⟨.numberOutOfRange, "Value out of range".toList, arg.length⟩
        else .ok ⟨.int value, arg.length⟩
    | none => .error ⟨.illegalArgument, "Invalid integer".toList, arg.length⟩
| .text, t =>
    let arg := getElement t
    .ok ⟨.str arg, arg.length⟩
| .quotableText emptyAllowed, t =>
    match t with
    | [] => .ok ⟨.str (getElement t), (getElement t).length⟩
    | c :: rest =>
        if c = '"' then quotedParse emptyAllowed t rest 1 [] false
        else .ok ⟨.str (getElement t), (getElement t).length⟩
| .greedyText, t => .ok ⟨.str t, t.length⟩

/-- An ArgumentNode: name (None for literals), parse behaviour, the two child
lists kept separately by `then`, the optional callback set by `runs`, the
requirement set by `requires` (the command source is its permission level),
and the redirect target set by `redirects`.  Callbacks are identified by a
number so that which callback ran is observable. -/
inductive Node : Type where
| mk (name : Option Str) (kind : NKind) (childrenLiteral : List Node)
     (children : List Node) (callback : Option Nat) (requirement : Nat → Bool)
     (redirect : Option Node)

def Node.nameOf : Node → Option Str
| .mk n _ _ _ _ _ _ => n

def Node.kindOf : Node → NKind
| .mk _ k _ _ _ _ _ => k

def Node.childrenLiteralOf : Node → List Node
| .mk _ _ l _ _ _ _ => l

def Node.childrenOf : Node → List Node
| .mk _ _ _ a _ _ _ => a

def Node.callbackOf : Node → Option Nat
| .mk _ _ _ _ cb _ _ => cb

def Node.redirectOf : Node → Option Node
| .mk _ _ _ _ _ _ rd => rd

/-- The parsing context dict; assignment replaces an existing key and
otherwise appends. -/
abbrev Ctx := List (Str × PVal)

def ctxInsert (ctx : Ctx) (k : Str) (v : PVal) : Ctx :=
  if ctx.any (fun e => e.1 = k) then ctx.map (fun e => if e.1 = k then (k, v) else e)
  else ctx ++ [(k, v)]

/-- The local error_pos helper of `_execute`: the prefix of the command up to
the ending position followed by the marker. -/
def errorPos (command : Str) (endingPos : Nat) : Str :=
  command.take endingPos ++ "<--".toList

/-- Execution outcome: the callback that ran with its context, or the error
raised. -/
inductive ExecRes : Type where
| done (cb : Nat) (ctx : Ctx)
| fail (e : CmdError)
deriving DecidableEq, Repr

/-- Whether an error is an IllegalLiteralArgument instance (the class caught
by the literal-children loop). -/
def isIllegalLiteral : CmdError → Bool
| .syn .illegalLiteralArgument _ _ _ => true
| _ => false

def hasChildrenL (lits args : List Node) : Bool :=
  decide (0 < args.length + lits.length)

mutual
/-- Embeds ArgumentNode._execute.  Arguments follow the source: source,
command (the full input), remaining (the un-parsed suffix), context. -/
def exec : Node → Nat → Str → Str → Ctx → ExecRes
| .mk name kind lits args cb req rd, source, command, remaining, context =>
  match parseKind kind remaining with
  | .error e =>
      .fail (.syn e.kind e.msg e.charRead
        (errorPos command (command.length - remaining.length + e.charRead)))
  | .ok result =>
    let totalRead := command.length - remaining.length + result.charRead
    let trimmedRemaining := removeDividers (remaining.drop result.charRead)
    if req source = false then .fail (.permissionDenied (errorPos command totalRead))
    else
      let context1 := match name with
        | some nm => ctxInsert context nm result.value
        | none => context
      if trimmedRemaining.length = 0 then
        match cb with
        | some f => .done f context1
        | none => .fail (.unknownCommand (errorPos command totalRead))
      else
        match rd with
        | none =>
            if hasChildrenL lits args = false then
              .fail (.unknownArgument (errorPos command command.length))
            else execChildren lits args source command trimmedRemaining context1
        | some (.mk _ _ lits2 args2 _ _ _) =>
            if hasChildrenL lits2 args2 = false then
              .fail (.unknownArgument (errorPos command command.length))
            else execChildren lits2 args2 source command trimmedRemaining context1
termination_by n _ _ _ _ => sizeOf n

/-- The literal-children loop with its for-else clause: each literal child is
tried in order, an IllegalLiteralArgument makes it fall through to the next,
success breaks, any other error propagates; when every literal child has
failed, control falls to the argument children. -/
def execChildren : List Node → List Node → Nat → Str → Str → Ctx → ExecRes
| [], args, source, command, remaining, context =>
    execArgChildren args source command remaining context
| l :: rest, args, source, command, remaining, context =>
    match exec l source command remaining context with
    | .done f c => .done f c
    | .fail e =>
        if isIllegalLiteral e then execChildren rest args source command remaining context
        else .fail e
termination_by lits args _ _ _ _ => 1 + sizeOf lits + sizeOf args

/-- The argument-children part: with no argument child UnknownArgument is
raised (the `len(node.children) == 0` guard); otherwise the first child runs,
success breaks and any error propagates. -/
def execArgChildren : List Node → Nat → Str → Str → Ctx → ExecRes
| [], _, command, _, _ => .fail (.unknownArgument (errorPos command command.length))
| c :: _, source, command, remaining, context => exec c source command remaining context
termination_by args _ _ _ _ => sizeOf args
end

/-- Embeds ExecutableNode.execute: an IllegalLiteralArgument escaping the root
is converted into UnknownRootArgument with the same position hint. -/
def execute (root : Node) (source : Nat) (command : Str) : ExecRes :=
  match exec root source command command [] with
  | .fail (.syn .illegalLiteralArgument _ _ hint) => .fail (.unknownRootArgument hint)
  | r => r


/-! ### Fuel-instrumented evaluator

`execF` computes the same function as `exec` by structural recursion on a
fuel counter (`none` means the fuel ran out); `execF_sound` relates the two.
It exists so that concrete runs of the interpreter can be evaluated by the
kernel. -/

mutual
def execF : Nat → Node → Nat → Str → Str → Ctx → Option ExecRes
| 0, _, _, _, _, _ => none
| fuel + 1, .mk name kind lits args cb req rd, source, command, remaining, context =>
  match parseKind kind remaining with
  | .error e =>
      some (.fail (.syn e.kind e.msg e.charRead
        (errorPos command (command.length - remaining.length + e.charRead))))
  | .ok result =>
    let totalRead := command.length - remaining.length + result.charRead
    let trimmedRemaining := removeDividers (remaining.drop result.charRead)
    if req source = false then some (.fail (.permissionDenied (errorPos command totalRead)))
    else
      let context1 := match name with
        | some nm => ctxInsert context nm result.value
        | none => context
      if trimmedRemaining.length = 0 then
        match cb with
        | some f => some (.done f context1)
        | none => some (.fail (.unknownCommand (errorPos command totalRead)))
      else
        match rd with
        | none =>
            if hasChildrenL lits args = false then
              some (.fail (.unknownArgument (errorPos command command.length)))
            else execChildrenF fuel lits args source command trimmedRemaining context1
        | some (.mk _ _ lits2 args2 _ _ _) =>
            if hasChildrenL lits2 args2 = false then
              some (.fail (.unknownArgument (errorPos command command.length)))
            else execChildrenF fuel lits2 args2 source command trimmedRemaining context1

def execChildrenF : Nat → List Node → List Node → Nat → Str → Str → Ctx → Option ExecRes
| 0, _, _, _, _, _, _ => none
| fuel + 1, [], args, source, command, remaining, context =>
    execArgChildrenF fuel args source command remaining context
| fuel + 1, l :: rest, args, source, command, remaining, context =>
    match execF fuel l source command remaining context with
    | none => none
    | some (.done f c) => some (.done f c)
    | some (.fail e) =>
        if isIllegalLiteral e then execChildrenF fuel rest args source command remaining context
        else some (.fail e)

def execArgChildrenF : Nat → List Node → Nat → Str → Str → Ctx → Option ExecRes
| 0, _, _, _, _, _ => none
| _ + 1, [], _, command, _, _ => some (.fail (.unknownArgument (errorPos command command.length)))
| fuel + 1, c :: _, source, command, remaining, context =>
    execF fuel c source command remaining context
end

/-! ### Trees built through the composition API

`then` appends Literal instances to `childrenLiteral` and every other node
to `children`; `WFTree` characterises the trees reachable that way: literal
children are literal nodes, argument children are not, recursively,
including through redirect targets. -/

inductive WFTree : Node → Prop where
| mk : ∀ (name : Option Str) (kind : NKind) (lits args : List Node)
    (cb : Option Nat) (req : Nat → Bool) (rd : Option Node),
    (∀ c ∈ lits, ∃ ls, c.kindOf = .literal ls) →
    (∀ c ∈ lits, WFTree c) →
    (∀ c ∈ args, ∀ ls, c.kindOf ≠ .literal ls) →
    (∀ c ∈ args, WFTree c) →
    (∀ d, rd = some d → WFTree d) →
    WFTree (.mk name kind lits args cb req rd)


/-- Whether an execution outcome is a raised IllegalLiteralArgument. -/
def resIllegalLiteral : ExecRes → Bool
| .fail e => isIllegalLiteral e
| .done _ _ => false

/-- Whether an execution outcome is a raised UnknownArgument. -/
def resUnknownArgument : ExecRes → Bool
| .fail (.unknownArgument _) => true
| _ => false


/-- A Literal node carrying one keyword with a terminal callback, as built
by `Literal(kw).runs(cb)`. -/
def litNode (kw : Str) (cb : Nat) : Node :=
  .mk none (.literal [kw]) [] [] (some cb) (fun _ => true) none

/-- An Integer node with a name and a terminal callback, as built by
`Integer(nm).runs(cb)`. -/
def intNode (nm : Str) (cb : Nat) : Node :=
  .mk (some nm) (.integer none none) [] [] (some cb) (fun _ => true) none

/-- The literal-fallthrough scenario tree: a root literal whose children are
the literals on and off plus one Integer child named n. -/
def c3root : Node :=
  .mk none (.literal [['t']]) [litNode "on".toList 1, litNode "off".toList 2]
    [intNode "n".toList 3] none (fun _ => true) none

/-- Membership of a node in the tree reachable from a root during dispatch:
the root itself, nodes inside literal or argument children, and nodes behind
a redirect target. -/
inductive Desc : Node → Node → Prop where
| refl (n : Node) : Desc n n
| viaLit {m c : Node} (n : Node) (hc : c ∈ n.childrenLiteralOf) (h : Desc m c) : Desc m n
| viaArg {m c : Node} (n : Node) (hc : c ∈ n.childrenOf) (h : Desc m c) : Desc m n
| viaRedirect {m d : Node} (n : Node) (hd : n.redirectOf = some d) (h : Desc m d) : Desc m n

/-! ## Versions and version requirements

Modelled from the spec: the version module is outside the embedded subset.
A version is the numeric tuple (major, minor, patch) with an optional
pre-release tag ranking below no tag at an equal tuple; a requirement string
is a whitespace-separated conjunction of op-version atoms, with a bare
version meaning equality and a star matching anything. -/

/-- Lexicographic order on character lists, used to order pre-release tags. -/
def strLt : Str → Str → Bool
| [], [] => false
| [], _ :: _ => true
| _ :: _, [] => false
| a :: as, b :: bs =>
    if a.toNat < b.toNat then true
    else if b.toNat < a.toNat then false
    else strLt as bs

structure Version where
  major : Nat
  minor : Nat
  patch : Nat
  pre : Option Str
deriving DecidableEq, Repr

/-- Total order on versions: lexical on the numeric tuple; at an equal tuple
a pre-release ranks below a non-pre-release. -/
def Version.lt (a b : Version) : Bool :=
  if a.major = b.major then
    if a.minor = b.minor then
      if a.patch = b.patch then
        match a.pre, b.pre with
        | some x, some y => strLt x y
        | some _, none => true
        | none, _ => false
      else decide (a.patch < b.patch)
    else decide (a.minor < b.minor)
  else decide (a.major < b.major)

def Version.le (a b : Version) : Bool := decide (a = b) || Version.lt a b

inductive VOp : Type where
| eqv
| gtv
| gev
| ltv
| lev
| tilde
| caret
| anyv
deriving DecidableEq, Repr

/-- One op-version atom of a requirement string. -/
structure Criterion where
  op : VOp
  ver : Version
deriving DecidableEq, Repr

/-- Satisfaction of one atom; tilde fixes major.minor, caret fixes the part
left of the leftmost non-zero component, star matches anything. -/
def Criterion.isSatisfiedBy (c : Criterion) (v : Version) : Bool :=
  match c.op with
  | .anyv => true
  | .eqv => decide (v = c.ver)
  | .gtv => Version.lt c.ver v
  | .gev => Version.le c.ver v
  | .ltv => Version.lt v c.ver
  | .lev => Version.le v c.ver
  | .tilde =>
      decide (v.major = c.ver.major) && decide (v.minor = c.ver.minor) && Version.le c.ver v
  | .caret =>
      if c.ver.major ≠ 0 then decide (v.major = c.ver.major) && Version.le c.ver v
      else if c.ver.minor ≠ 0 then
        decide (v.major = 0) && decide (v.minor = c.ver.minor) && Version.le c.ver v
      else
        decide (v.major = 0) && decide (v.minor = 0) && decide (v.patch = c.ver.patch) &&
          Version.le c.ver v

/-- A requirement is the conjunction of its atoms. -/
structure VersionRequirement where
  criteria : List Criterion
deriving DecidableEq, Repr

def VersionRequirement.isSatisfiedBy (r : VersionRequirement) (v : Version) : Bool :=
  r.criteria.all (fun c => c.isSatisfiedBy v)

/-- Parse X, X.Y or X.Y.Z with an optional -prerelease tag; missing
components default to zero. -/
def parseVersion (t : Str) : Option Version :=
  if t = [] then none
  else
    let mainPart := t.takeWhile (fun c => c ≠ '-')
    let rest := t.dropWhile (fun c => c ≠ '-')
    let pre : Option Str := match rest with | [] => none | _ :: p => some p
    match mainPart.splitOn '.' with
    | [a] => (parseDigits a).map (fun x => ⟨x, 0, 0, pre⟩)
    | [a, b] =>
        match parseDigits a, parseDigits b with
        | some x, some y => some ⟨x, y, 0, pre⟩
        | _, _ => none
    | [a, b, c] =>
        match parseDigits a, parseDigits b, parseDigits c with
        | some x, some y, some z => some ⟨x, y, z, pre⟩
        | _, _, _ => none
    | _ => none

def parseCriterion (t : Str) : Option Criterion :=
  if t = ['*'] then some ⟨.anyv, ⟨0, 0, 0, none⟩⟩
  else if t.take 2 = ['>', '='] then (parseVersion (t.drop 2)).map (fun v => ⟨.gev, v⟩)
  else if t.take 2 = ['<', '='] then (parseVersion (t.drop 2)).map (fun v => ⟨.lev, v⟩)
  else if t.take 1 = ['>'] then (parseVersion (t.drop 1)).map (fun v => ⟨.gtv, v⟩)
  else if t.take 1 = ['<'] then (parseVersion (t.drop 1)).map (fun v => ⟨.ltv, v⟩)
  else if t.take 1 = ['='] then (parseVersion (t.drop 1)).map (fun v => ⟨.eqv, v⟩)
  else if t.take 1 = ['~'] then (parseVersion (t.drop 1)).map (fun v => ⟨.tilde, v⟩)
  else if t.take 1 = ['^'] then (parseVersion (t.drop 1)).map (fun v => ⟨.caret, v⟩)
  else (parseVersion t).map (fun v => ⟨.eqv, v⟩)

/-- Parse a whole requirement string: whitespace-separated atoms, all of
which must parse (VersionParsingError otherwise, embedded as none). -/
def parseRequirement (t : Str) : Option VersionRequirement :=
  let atoms := (t.splitOn ' ').filter (fun a => a ≠ [])
  (atoms.mapM parseCriterion).map (fun cs => ⟨cs⟩)

/-! ## Plugin metadata (mcdreforged/plugin/metadata.py) -/

/-- The metadata dict read from the plugin module: the entries MetaData reads.
Absent keys are none; the dependencies dict is a key-ordered association
list. -/
structure PyMetaDict where
  idOpt : Option Str
  versionOpt : Option Str
  dependencies : List (Str × Str)
deriving DecidableEq, Repr

/-- Modelled from the spec: string_util.remove_suffix is outside the embedded
subset; it drops the suffix when present. -/
def removeSuffix (s suf : Str) : Str :=
  if suf.isSuffixOf s then s.take (s.length - suf.length) else s

def FALLBACK_VERSION : Version := ⟨0, 0, 0, none⟩

/-- The fields of MetaData that the claims concern.  The rich-text fields
(name, description, author, link) are plain copies of dict entries through
RTextBase, which is outside the embedded subset, and are omitted. -/
structure MetaData where
  pid : Str
  version : Version
  dependencies : List (Str × VersionRequirement)
deriving DecidableEq, Repr

/-- Embeds MetaData.__init__: a non-dict payload becomes an empty dict, the
id falls back to the file name without its .py suffix, an absent, empty or
malformed version string falls back to 0.0.0 with a warning, and each
dependency entry whose requirement string fails to parse is skipped with a
warning while parsing entries are kept. -/
def mkMetaData (fileName : Str) (data : Option PyMetaDict) : MetaData :=
  let d := data.getD ⟨none, none, []⟩
  let fallbackId := removeSuffix fileName ".py".toList
  let pid := d.idOpt.getD fallbackId
  let version :=
    match d.versionOpt with
    | some vs =>
        if vs ≠ [] then
          match parseVersion vs with
          | some v => v
          | none => FALLBACK_VERSION
        else FALLBACK_VERSION
    | none => FALLBACK_VERSION
  let dependencies := d.dependencies.foldl (fun acc e =>
      match parseRequirement e.2 with
      | some r => acc ++ [(e.1, r)]
      | none => acc) []
  ⟨pid, version, dependencies⟩

/-! ## Plugin manager (mcdreforged/plugin/plugin_manager.py)

The Plugin entity, the DependencyWalker and the per-plugin registries are
outside the embedded subset and are modelled from the spec; the manager
itself (maps, single-plugin operations, collectors, post-process and the
public operations) is embedded from the source.  External behaviour (what
the file system holds and what each plugin file does when loaded, unloaded,
reloaded) is an explicit environment value. -/

inductive PluginState : Type where
| uninitialized
| loading
| loaded
| ready
| unloading
| unloaded
deriving DecidableEq, Repr

/-- Modelled from the spec: a plugin owns a file path, a metadata id and a
lifecycle state; the registry content it contributes is identified by its
id. -/
structure Plugin where
  pid : Str
  filePath : Str
  state : PluginState
deriving DecidableEq, Repr

/-- What one plugin file does when the manager drives it: whether load,
unload and reload succeed, the metadata id produced by a successful load
(a fixed function of the file, as the id defaults to the file stem and the
file content is fixed during one operation), and the change-detection
answers. -/
structure FileBeh where
  loadOk : Bool
  metaId : Str
  unloadOk : Bool
  reloadOk : Bool
  fileExists : Bool
  fileChanged : Bool

/-- Metadata used by the dependency walker, keyed by plugin id. -/
structure PluginMeta where
  version : Version
  deps : List (Str × VersionRequirement)

/-- The world outside the manager: the plugin files listed in the plugin
folders and the behaviour and metadata of each. -/
structure Env where
  files : List Str
  beh : Str → FileBeh
  metaOf : Str → PluginMeta

inductive PEvent : Type where
| pluginLoad
| pluginUnload
deriving DecidableEq, Repr

/-- SingleOperationResult: the success and failure lists of one sub-phase.
Success entries are plugin ids; failure entries are plugin ids except in the
load phase where a failed load records the file path. -/
structure SingleOperationResult where
  successList : List Str
  failedList : List Str
deriving DecidableEq, Repr

def SingleOperationResult.empty : SingleOperationResult := ⟨[], []⟩

def SingleOperationResult.succeed (r : SingleOperationResult) (pid : Str) :
    SingleOperationResult := { r with successList := r.successList ++ [pid] }

def SingleOperationResult.fail (r : SingleOperationResult) (entry : Str) :
    SingleOperationResult := { r with failedList := r.failedList ++ [entry] }

def SingleOperationResult.record (r : SingleOperationResult) (pid : Str)
    (success : Bool) : SingleOperationResult :=
  if success then r.succeed pid else r.fail pid

structure PluginOperationResult where
  loadR : SingleOperationResult
  unloadR : SingleOperationResult
  reloadR : SingleOperationResult
  depR : SingleOperationResult
deriving DecidableEq, Repr

/-- The manager state: the id-keyed plugin map and the file-path map in
insertion order, plus observation fields: the plugin objects evicted or
discarded by the running operation (transient scratch, reset when a public
operation starts), the events delivered to plugins, the aggregate registry
(the collected per-plugin registries, identified by plugin id, in collection
order) and the last operation result. -/
structure PMState where
  plugins : List Plugin
  pluginFilePath : List (Str × Str)
  evicted : List Plugin
  discarded : List Plugin
  eventLog : List (Str × PEvent)
  registry : List Str
  lastOperationResult : PluginOperationResult
deriving DecidableEq, Repr

def lookupPlugin (s : PMState) (pid : Str) : Option Plugin :=
  s.plugins.find? (fun p => p.pid = pid)

def containsPluginFile (s : PMState) (fp : Str) : Bool :=
  s.pluginFilePath.any (fun e => e.1 = fp)

/-- Embeds PluginManager.__add_plugin. -/
def addPlugin (s : PMState) (p : Plugin) : PMState :=
  { s with plugins := s.plugins ++ [p],
           pluginFilePath := s.pluginFilePath ++ [(p.filePath, p.pid)] }

/-- Embeds PluginManager.__remove_plugin: pops the plugin id from the plugin
map and the plugin file path from the file map (the keys are present
whenever the maps are consistent, and pop of a present key is removal). -/
def removePlugin (s : PMState) (p : Plugin) : PMState :=
  { s with plugins := s.plugins.filter (fun q => q.pid ≠ p.pid),
           pluginFilePath := s.pluginFilePath.filter (fun e => e.1 ≠ p.filePath) }

/-- Set the state of the plugin object with the given id. -/
def setPluginState (s : PMState) (pid : Str) (st : PluginState) : PMState :=
  { s with plugins := s.plugins.map (fun q => if q.pid = pid then { q with state := st } else q) }

/-- Embeds PluginManager.__load_plugin: construct the plugin and load it; on
an exception log and return None with no change; on success, if the id is
already registered the new plugin is rejected: error log, unload (exceptions
swallowed), remove, and None is returned with the maps untouched; otherwise
the plugin is added in state LOADED. -/
def loadPluginFile (env : Env) (s : PMState) (fp : Str) : PMState × Option Plugin :=
  if (env.beh fp).loadOk = false then (s, none)
  else
    let p : Plugin := { pid := (env.beh fp).metaId, filePath := fp, state := .loaded }
    match s.plugins.find? (fun q => q.pid = p.pid) with
    | none => (addPlugin s p, some p)
    | some _ => ({ s with discarded := s.discarded ++ [{ p with state := .unloaded }] }, none)

/-- Embeds PluginManager.__unload_plugin: the plugin ends in state UNLOADING
whether its unload raised or not (the except branch forces it), it is removed
from both maps in the finally branch, and the returned flag tells whether no
exception occurred. -/
def unloadPluginObj (env : Env) (s : PMState) (p : Plugin) : PMState × Bool :=
  let ret := (env.beh p.filePath).unloadOk
  let s1 := removePlugin s p
  ({ s1 with evicted := s1.evicted ++ [{ p with state := .unloading }] }, ret)

/-- Embeds PluginManager.__reload_plugin: on success the plugin was unloaded
and loaded again in place (state LOADED, per the spec lifecycle); on an
exception it is unloaded and False is returned. -/
def reloadPluginObj (env : Env) (s : PMState) (p : Plugin) : PMState × Bool :=
  if (env.beh p.filePath).reloadOk then (setPluginState s p.pid .loaded, true)
  else ((unloadPluginObj env s p).1, false)

/-- One iteration of the collect_and_process_new_plugins loop. -/
def loadStep (env : Env) (filter : Str → Bool)
    (acc : PMState × SingleOperationResult) (fp : Str) :
    PMState × SingleOperationResult :=
  if containsPluginFile acc.1 fp = false ∧ filter fp then
    match loadPluginFile env acc.1 fp with
    | (s1, some p) => (s1, acc.2.succeed p.pid)
    | (s1, none) => (s1, acc.2.fail fp)
  else acc

/-- Embeds PluginManager.collect_and_process_new_plugins: for every candidate
file (the folder listing, or just the specific file) not already registered
and passing the filter, try to load it, recording the new plugin or the
failed path. -/
def collect_and_process_new_plugins (env : Env) (s : PMState) (filter : Str → Bool)
    (specific : Option Str) : PMState × SingleOperationResult :=
  let fileList := match specific with | none => env.files | some f => [f]
  fileList.foldl (loadStep env filter) (s, .empty)

/-- One iteration of the collect_and_remove_plugins loop. -/
def removeStep (env : Env) (filter : Plugin → Bool)
    (acc : PMState × SingleOperationResult) (p : Plugin) :
    PMState × SingleOperationResult :=
  if filter p then
    ((unloadPluginObj env acc.1 p).1, acc.2.record p.pid (unloadPluginObj env acc.1 p).2)
  else acc

/-- Embeds PluginManager.collect_and_remove_plugins: over a snapshot of the
plugin list (or the specific plugin), unload every plugin passing the
filter, recording the outcome. -/
def collect_and_remove_plugins (env : Env) (s : PMState) (filter : Plugin → Bool)
    (specific : Option Plugin) : PMState × SingleOperationResult :=
  let pluginList := match specific with | none => s.plugins | some p => [p]
  pluginList.foldl (removeStep env filter) (s, .empty)

/-- One iteration of the reload_ready_plugins loop. -/
def reloadStep (env : Env) (filter : Plugin → Bool)
    (acc : PMState × SingleOperationResult) (p : Plugin) :
    PMState × SingleOperationResult :=
  if p.state = .ready ∧ filter p then
    ((reloadPluginObj env acc.1 p).1, acc.2.record p.pid (reloadPluginObj env acc.1 p).2)
  else acc

/-- Embeds PluginManager.reload_ready_plugins: over a snapshot of the plugin
list (or the specific plugin), reload every plugin in state READY passing
the filter, recording the outcome. -/
def reload_ready_plugins (env : Env) (s : PMState) (filter : Plugin → Bool)
    (specific : Option Plugin) : PMState × SingleOperationResult :=
  let pluginList := match specific with | none => s.plugins | some p => [p]
  pluginList.foldl (reloadStep env filter) (s, .empty)

/-- Modelled from the spec: the DependencyWalker checks one plugin by
depth-first descent over its declared dependencies; a dependency is bad when
its id is absent from the map, its version does not satisfy the requirement,
it fails its own check, or it closes a cycle (the stack holds the ids in
progress).  Fuel bounds the descent; map size plus one always suffices. -/
def depOkAux (env : Env) (pl : List Plugin) : Nat → List Str → Str → Bool
| 0, _, _ => false
| fuel + 1, stack, pid =>
  if pid ∈ stack then false
  else
    match pl.find? (fun p => p.pid = pid) with
    | none => false
    | some _ =>
        (env.metaOf pid).deps.all (fun dep =>
          match pl.find? (fun p => p.pid = dep.1) with
          | none => false
          | some _ =>
              dep.2.isSatisfiedBy (env.metaOf dep.1).version &&
                depOkAux env pl fuel (pid :: stack) dep.1)

def depOk (env : Env) (pl : List Plugin) (pid : Str) : Bool :=
  depOkAux env pl (pl.length + 1) [] pid

/-- Embeds PluginManager.check_plugin_dependencies: the walker produces one
item per plugin of the entry map (modelled in map order; no claim depends on
the topological order of the items); each item is recorded and a failed
plugin is unloaded on the spot. -/
def depStep (env : Env) (acc : PMState × SingleOperationResult)
    (item : Str × Bool) : PMState × SingleOperationResult :=
  match lookupPlugin acc.1 item.1 with
  | some plugin =>
      let r1 := acc.2.record item.1 item.2
      if item.2 then (acc.1, r1)
      else ((unloadPluginObj env acc.1 plugin).1, r1)
  | none => acc

def check_plugin_dependencies (env : Env) (s : PMState) :
    PMState × SingleOperationResult :=
  let items := s.plugins.map (fun p => (p.pid, depOk env s.plugins p.pid))
  items.foldl (depStep env) (s, .empty)

/-- Embeds PluginManager.__update_registry: clear the aggregate registry and
re-collect each remaining plugin registry in map order. -/
def update_registry (s : PMState) : PMState :=
  { s with registry := s.plugins.map (fun p => p.pid) }

/-- One iteration of the ready-transition loop of __post_plugin_process. -/
def readyStep (depSucc : List Str) (st : PMState) (pid : Str) : PMState :=
  if pid ∈ depSucc then setPluginState st pid .ready else st

/-- One iteration of the PLUGIN_LOAD dispatch loop of __post_plugin_process. -/
def loadEventStep (newly : List Str) (st : PMState) (pid : Str) : PMState :=
  if pid ∈ newly then { st with eventLog := st.eventLog ++ [(pid, .pluginLoad)] }
  else st

/-- One iteration of the unloaded-plugins loop of __post_plugin_process:
assert the plugin object is UNLOADING (none embeds the assertion firing),
dispatch PLUGIN_UNLOAD unless it was loaded by this same operation, and
remove it (state UNLOADED). -/
def unloadPhaseStep (loadSucc : List Str) (acc : Option PMState) (pid : Str) :
    Option PMState :=
  match acc with
  | none => none
  | some st =>
      match st.evicted.find? (fun p => p.pid = pid) with
      | some p =>
          if p.state = .unloading then
            let st1 := if pid ∈ loadSucc then st
                else { st with eventLog := st.eventLog ++ [(pid, .pluginUnload)] }
            some { st1 with evicted := st1.evicted.map (fun q =>
                if q.pid = pid then { q with state := .unloaded } else q) }
          else none
      | none => none

/-- Embeds PluginManager.__post_plugin_process: run the dependency check and
record the four sub-results; transition newly loaded or reloaded plugins
that passed the check to READY; dispatch PLUGIN_LOAD to them; for every
plugin unloaded by any phase assert state UNLOADING (none means an assertion
fired), dispatch PLUGIN_UNLOAD unless it was loaded by this same operation,
and remove it; finally assert every remaining plugin is READY and rebuild
the registry. -/
def post_plugin_process (env : Env) (s : PMState)
    (loadR unloadR reloadR : SingleOperationResult) : Option PMState :=
  let (s1, depR) := check_plugin_dependencies env s
  let s2 := { s1 with lastOperationResult := ⟨loadR, unloadR, reloadR, depR⟩ }
  let s3 := (loadR.successList ++ reloadR.successList).foldl (readyStep depR.successList) s2
  let newly := loadR.successList ++ reloadR.successList
  let s4 := depR.successList.foldl (loadEventStep newly) s3
  let unloadedList := unloadR.successList ++ unloadR.failedList ++
      reloadR.failedList ++ depR.failedList
  match unloadedList.foldl (unloadPhaseStep loadR.successList) (some s4) with
  | none => none
  | some s5 =>
      if s5.plugins.all (fun p => p.state = .ready) then some (update_registry s5)
      else none

/-- A public operation works on fresh observation scratch: the object pools
for evicted and discarded plugins concern the running operation only. -/
def beginOp (s : PMState) : PMState := { s with evicted := [], discarded := [] }

/-- Embeds PluginManager.load_plugin. -/
def load_plugin (env : Env) (s : PMState) (fp : Str) : Option PMState :=
  let (s1, loadR) := collect_and_process_new_plugins env (beginOp s) (fun _ => true) (some fp)
  post_plugin_process env s1 loadR .empty .empty

/-- Embeds PluginManager.unload_plugin. -/
def unload_plugin (env : Env) (s : PMState) (p : Plugin) : Option PMState :=
  let (s1, unloadR) := collect_and_remove_plugins env (beginOp s) (fun _ => true) (some p)
  post_plugin_process env s1 .empty unloadR .empty

/-- Embeds PluginManager.reload_plugin. -/
def reload_plugin (env : Env) (s : PMState) (p : Plugin) : Option PMState :=
  let (s1, reloadR) := reload_ready_plugins env (beginOp s) (fun _ => true) (some p)
  post_plugin_process env s1 .empty .empty reloadR

/-- Embeds PluginManager.__refresh_plugins: load new files, unload plugins
whose file is gone, reload the READY plugins passing the filter, then
post-process. -/
def refreshPlugins (env : Env) (s : PMState) (reloadFilter : Plugin → Bool) :
    Option PMState :=
  let (s1, loadR) := collect_and_process_new_plugins env (beginOp s) (fun _ => true) none
  let (s2, unloadR) := collect_and_remove_plugins env s1
      (fun p => (env.beh p.filePath).fileExists = false) none
  let (s3, reloadR) := reload_ready_plugins env s2 reloadFilter none
  post_plugin_process env s3 loadR unloadR reloadR

/-- Embeds PluginManager.refresh_all_plugins. -/
def refresh_all_plugins (env : Env) (s : PMState) : Option PMState :=
  refreshPlugins env s (fun _ => true)

/-- Embeds PluginManager.refresh_changed_plugins. -/
def refresh_changed_plugins (env : Env) (s : PMState) : Option PMState :=
  refreshPlugins env s (fun p => (env.beh p.filePath).fileChanged)

def pids (l : List Plugin) : List Str := l.map (fun p => p.pid)

/-- Consistency of the two maps: unique ids, unique file paths, and the
file-path map holding exactly the (path, id) pairs of the plugin map. -/
def WFMaps (s : PMState) : Prop :=
  (pids s.plugins).Nodup ∧
  (s.plugins.map (fun p => p.filePath)).Nodup ∧
  s.pluginFilePath = s.plugins.map (fun p => (p.filePath, p.pid))

def AllReady (s : PMState) : Prop := ∀ p ∈ s.plugins, p.state = .ready

/-- The manager steady-state invariant: consistent maps, every plugin READY. -/
def WF (s : PMState) : Prop := WFMaps s ∧ AllReady s

instance (s : PMState) : Decidable (WFMaps s) := by
  unfold WFMaps
  infer_instance

instance (s : PMState) : Decidable (AllReady s) := by
  unfold AllReady
  infer_instance

instance (s : PMState) : Decidable (WF s) := by
  unfold WF
  infer_instance

/-! ## Info reactor manager (mcdreforged/info_reactor_manager.py) -/

/-- REACTOR_QUEUE_FULL_WARN_INTERVAL_SEC from constant.py. -/
def REACTOR_QUEUE_FULL_WARN_INTERVAL_SEC : Int := 5

/-- The InfoReactorManager state the claim concerns: the time of the last
queue-full warning (None after construction). -/
structure IRMState where
  lastQueueFullWarnTime : Option Int
deriving DecidableEq, Repr

/-- What one put_info call did: enqueued the task, logged a warning, or
logged at debug level. -/
inductive LogKind : Type where
| warning
| debug
| enqueued
deriving DecidableEq, Repr

/-- Embeds InfoReactorManager.put_info.  Modelled from the spec:
task_executor.add_info_task raises queue.Full exactly when the bounded queue
is full, which is the queueFull input; time.time() is the currentTime
input.  When the queue is full: warn and remember the time if no warning was
ever logged or the interval has passed, otherwise log at debug level. -/
def put_info (queueFull : Bool) (currentTime : Int) (st : IRMState) :
    IRMState × LogKind :=
  if queueFull = false then (st, .enqueued)
  else
    match st.lastQueueFullWarnTime with
    | none => (⟨some currentTime⟩, .warning)
    | some t =>
        if currentTime - t ≥ REACTOR_QUEUE_FULL_WARN_INTERVAL_SEC then
          (⟨some currentTime⟩, .warning)
        else (st, .debug)

/-- Run put_info over a sequence of (time, queue-full) inputs, producing the
log action of each call. -/
def runReactor (st : IRMState) : List (Int × Bool) → List (Int × LogKind)
| [] => []
| (t, full) :: rest =>
    let step := put_info full t st
    (t, step.2) :: runReactor step.1 rest

/-- The times at which warnings were emitted. -/
def warnTimes (trace : List (Int × LogKind)) : List Int :=
  (trace.filter (fun e => e.2 = .warning)).map (fun e => e.1)

/-! ## Listener triggering (PluginManager.trigger_listener)

The thread-local current plugin around listener execution.  A listener body
is modelled as a sequence of actions, since listener callables are arbitrary
plugin code: observe the current plugin, raise, or invoke a nested
trigger_listener on another listener. -/

inductive Act : Type where
| probe
| raiseErr
| trigger (plugin : Str) (body : List Act)

/-- The thread-local slot plus the trace of current-plugin values observed
by executed probe actions. -/
structure TLState where
  tls : Option Str
  trace : List (Option Str)
deriving DecidableEq, Repr

mutual
/-- Embeds PluginManager.trigger_listener: set_current_plugin(listener
plugin); run the listener, catching any exception; finally
set_current_plugin(None). -/
def triggerListener (st : TLState) (plugin : Str) (body : List Act) : TLState :=
  let st1 := runBody { st with tls := some plugin } body
  { st1 with tls := none }
termination_by sizeOf body + 1

/-- Run a listener body: a probe records the current plugin, an exception
aborts the rest of the body (to be caught by the enclosing
trigger_listener), a nested trigger runs the inner listener and continues. -/
def runBody : TLState → List Act → TLState
| st, [] => st
| st, .probe :: rest => runBody { st with trace := st.trace ++ [st.tls] } rest
| st, .raiseErr :: _ => st
| st, .trigger p b :: rest => runBody (triggerListener st p b) rest
termination_by _ acts => sizeOf acts
end

/-- Environment whose plugin files fail to load and to unload. -/
def c6env : Env :=
  { files := [],
    beh := fun _ => { loadOk := false, metaId := "a".toList, unloadOk := false,
                      reloadOk := false, fileExists := true, fileChanged := false },
    metaOf := fun _ => { version := ⟨1, 0, 0, none⟩, deps := [] } }

def c5env : Env :=
  { files := [],
    beh := fun _ => { loadOk := true, metaId := "a".toList, unloadOk := true,
                      reloadOk := true, fileExists := true, fileChanged := false },
    metaOf := fun _ => { version := ⟨1, 0, 0, none⟩, deps := [] } }

def c5state : PMState :=
  { plugins := [{ pid := "a".toList, filePath := "a.py".toList, state := .ready }],
    pluginFilePath := [("a.py".toList, "a".toList)],
    evicted := [], discarded := [], eventLog := [],
    registry := ["a".toList],
    lastOperationResult := ⟨.empty, .empty, .empty, .empty⟩ }

/-- Environment for the steady-state refresh scenario: the one registered
file exists, is unchanged, loads fine and has no dependencies. -/
def c7env : Env :=
  { files := ["a.py".toList],
    beh := fun _ => { loadOk := true, metaId := "a".toList, unloadOk := true,
                      reloadOk := true, fileExists := true, fileChanged := false },
    metaOf := fun _ => { version := ⟨1, 0, 0, none⟩, deps := [] } }

theorem execF_sound : ∀ fuel : Nat,
    (∀ n source command remaining context r,
      execF fuel n source command remaining context = some r →
      exec n source command remaining context = r) ∧
    (∀ lits args source command remaining context r,
      execChildrenF fuel lits args source command remaining context = some r →
      execChildren lits args source command remaining context = r) ∧
    (∀ args source command remaining context r,
      execArgChildrenF fuel args source command remaining context = some r →
      execArgChildren args source command remaining context = r) := by
  intro fuel
  induction fuel with
  | zero =>
      refine ⟨?_, ?_, ?_⟩
      · intro _ _ _ _ _ _ h; simp [execF] at h
      · intro _ _ _ _ _ _ _ h; simp [execChildrenF] at h
      · intro _ _ _ _ _ _ h; simp [execArgChildrenF] at h
  | succ fuel ih =>
      obtain ⟨ihE, ihL, ihA⟩ := ih
      refine ⟨?_, ?_, ?_⟩
      · intro n source command remaining context r h
        obtain ⟨name, kind, lits, args, cb, req, rd⟩ := n
        rw [execF] at h
        rw [exec]
        cases hp : parseKind kind remaining with
        | error e =>
            rw [hp] at h
            simp only at h
            exact Option.some.inj h
        | ok result =>
            rw [hp] at h
            simp only at h ⊢
            by_cases hreq : req source = false
            · simp only [hreq, if_true] at h ⊢
              exact Option.some.inj h
            · simp only [hreq, if_false] at h ⊢
              by_cases htr : (removeDividers (remaining.drop result.charRead)).length = 0
              · simp only [htr, if_true] at h ⊢
                cases cb with
                | some f => exact Option.some.inj h
                | none => exact Option.some.inj h
              · simp only [htr, if_false] at h ⊢
                cases rd with
                | none =>
                    simp only at h ⊢
                    by_cases hc : hasChildrenL lits args = false
                    · simp only [hc, if_true] at h ⊢
                      exact Option.some.inj h
                    · simp only [hc, if_false] at h ⊢
                      exact ihL _ _ _ _ _ _ _ h
                | some d =>
                    obtain ⟨n2, k2, lits2, args2, cb2, req2, rd2⟩ := d
                    simp only at h ⊢
                    by_cases hc : hasChildrenL lits2 args2 = false
                    · simp only [hc, if_true] at h ⊢
                      exact Option.some.inj h
                    · simp only [hc, if_false] at h ⊢
                      exact ihL _ _ _ _ _ _ _ h
      · intro lits args source command remaining context r h
        cases lits with
        | nil =>
            rw [execChildrenF] at h
            rw [execChildren]
            exact ihA _ _ _ _ _ _ h
        | cons l rest =>
            rw [execChildrenF] at h
            rw [execChildren]
            cases he : execF fuel l source command remaining context with
            | none => rw [he] at h; simp at h
            | some res =>
                rw [he] at h
                rw [ihE _ _ _ _ _ _ he]
                cases res with
                | done f c => simp only at h ⊢; exact Option.some.inj h
                | fail e =>
                    simp only at h ⊢
                    by_cases hi : isIllegalLiteral e
                    · simp only [hi, if_true] at h ⊢
                      exact ihL _ _ _ _ _ _ _ h
                    · simp only [hi, if_false] at h ⊢
                      exact Option.some.inj h
      · intro args source command remaining context r h
        cases args with
        | nil =>
            rw [execArgChildrenF] at h
            rw [execArgChildren]
            exact Option.some.inj h
        | cons c cs =>
            rw [execArgChildrenF] at h
            rw [execArgChildren]
            exact ihE _ _ _ _ _ _ h
/-- Helper for the scanning loop of QuotableText: it never raises
IllegalLiteralArgument. -/
theorem quotedParse_kind : ∀ (ea : Bool) (full rest : Str) (i : Nat) (collected : Str)
    (escaped : Bool) (e : ParseErr),
    quotedParse ea full rest i collected escaped = .error e →
    e.kind ≠ .illegalLiteralArgument := by
  intro ea full rest
  induction rest with
  | nil =>
      intro i collected escaped e h
      rw [quotedParse] at h
      injection h with h2
      subst h2
      simp
  | cons ch rest ih =>
      intro i collected escaped e h
      rw [quotedParse] at h
      by_cases hesc : escaped
      · simp only [hesc, if_true] at h
        by_cases hch : ch = '\\' ∨ ch = '"'
        · simp only [hch, if_true] at h
          exact ih _ _ _ _ h
        · simp only [hch, if_false] at h
          injection h with h2
          subst h2
          simp
      · simp only [hesc, if_false] at h
        by_cases hbs : ch = '\\'
        · simp only [hbs, if_true] at h
          exact ih _ _ _ _ h
        · simp only [hbs, if_false] at h
          by_cases hq : ch = '"'
          · simp only [hq, if_true] at h
            by_cases hemp : ea = false ∧ collected.length = 0
            · simp only [hemp, if_true] at h
              injection h with h2
              subst h2
              simp
            · simp only [hemp, if_false] at h
              cases h
          · simp only [hq, if_false] at h
            exact ih _ _ _ _ h

/-- Only the parse of a literal node raises IllegalLiteralArgument. -/
theorem parseKind_illegalLiteral : ∀ (k : NKind) (t : Str) (e : ParseErr),
    parseKind k t = .error e → e.kind = .illegalLiteralArgument →
    ∃ ls, k = .literal ls := by
  intro k t e h hk
  cases k with
  | literal ls => exact ⟨ls, rfl⟩
  | integer mn mx =>
      exfalso
      simp only [parseKind] at h
      cases hi : parseIntToken (getElement t) with
      | some value =>
          simp only [hi] at h
          split at h
          · injection h with h2
            subst h2
            simp at hk
          · cases h
      | none =>
          simp only [hi] at h
          injection h with h2
          subst h2
          simp at hk
  | text =>
      exfalso
      simp only [parseKind] at h
      cases h
  | quotableText ea =>
      exfalso
      simp only [parseKind] at h
      cases t with
      | nil => simp at h
      | cons c rest =>
          by_cases hc : c = '"'
          · simp only [hc, if_true] at h
            exact quotedParse_kind _ _ _ _ _ _ _ h hk
          · simp only [hc, if_false] at h
            cases h
  | greedyText =>
      exfalso
      simp only [parseKind] at h
      cases h

/-- An IllegalLiteralArgument escaping `_execute` on an API-built tree can
only come from the node's own parse: the literal-children loop swallows it
and argument children never raise it. -/
theorem exec_illegalLiteral : ∀ N : Nat,
    (∀ n src cmd rem ctx msg cr hh, sizeOf n ≤ N → WFTree n →
      exec n src cmd rem ctx = .fail (.syn .illegalLiteralArgument msg cr hh) →
      ∃ e, parseKind n.kindOf rem = .error e ∧ e.kind = .illegalLiteralArgument) ∧
    (∀ lits args src cmd rem ctx msg cr hh, sizeOf lits + sizeOf args ≤ N →
      (∀ c ∈ args, (∀ ls, c.kindOf ≠ .literal ls) ∧ WFTree c) →
      execChildren lits args src cmd rem ctx ≠ .fail (.syn .illegalLiteralArgument msg cr hh)) ∧
    (∀ args src cmd rem ctx msg cr hh, sizeOf args ≤ N →
      (∀ c ∈ args, (∀ ls, c.kindOf ≠ .literal ls) ∧ WFTree c) →
      execArgChildren args src cmd rem ctx ≠ .fail (.syn .illegalLiteralArgument msg cr hh)) := by
  intro N
  induction N using Nat.strong_induction_on with
  | _ N IH =>
  refine ⟨?_, ?_, ?_⟩
  · intro n src cmd rem ctx msg cr hh hsz hwf hex
    obtain ⟨name, kind, lits, args, cb, req, rd⟩ := n
    cases hwf with
    | mk _ _ _ _ _ _ _ hlitkind hlitwf hargkind hargwf hrdwf =>
    rw [exec] at hex
    cases hp : parseKind kind rem with
    | error e =>
        rw [hp] at hex
        simp only at hex
        simp only [Node.kindOf]
        injection hex with hex2
        injection hex2 with hk _ _ _
        exact ⟨e, hp, hk⟩
    | ok result =>
        rw [hp] at hex
        simp only at hex
        by_cases hreq : req src = false
        · simp only [hreq, if_true] at hex
          simp at hex
        · simp only [hreq, if_false] at hex
          by_cases htr : (removeDividers (rem.drop result.charRead)).length = 0
          · simp only [htr, if_true] at hex
            cases cb with
            | some f => simp at hex
            | none => simp at hex
          · simp only [htr, if_false] at hex
            cases rd with
            | none =>
                simp only at hex
                by_cases hc : hasChildrenL lits args = false
                · simp only [hc, if_true] at hex
                  simp at hex
                · simp only [hc, if_false] at hex
                  have hlt : sizeOf lits + sizeOf args < N := by
                    have := Node.mk.sizeOf_spec name kind lits args cb req none
                    omega
                  exact absurd hex ((IH _ hlt).2.1 _ _ _ _ _ _ _ _ _ le_rfl
                    (fun c hc2 => ⟨hargkind c hc2, hargwf c hc2⟩))
            | some d =>
                obtain ⟨n2, k2, lits2, args2, cb2, req2, rd2⟩ := d
                have hwfd := hrdwf _ rfl
                cases hwfd with
                | mk _ _ _ _ _ _ _ hlitkind2 hlitwf2 hargkind2 hargwf2 hrdwf2 =>
                simp only at hex
                by_cases hc : hasChildrenL lits2 args2 = false
                · simp only [hc, if_true] at hex
                  simp at hex
                · simp only [hc, if_false] at hex
                  have hlt : sizeOf lits2 + sizeOf args2 < N := by
                    have h1 := Node.mk.sizeOf_spec name kind lits args cb req
                      (some (Node.mk n2 k2 lits2 args2 cb2 req2 rd2))
                    have h2 := Node.mk.sizeOf_spec n2 k2 lits2 args2 cb2 req2 rd2
                    have h3 : sizeOf (some (Node.mk n2 k2 lits2 args2 cb2 req2 rd2)) =
                        1 + sizeOf (Node.mk n2 k2 lits2 args2 cb2 req2 rd2) := by simp
                    omega
                  exact absurd hex ((IH _ hlt).2.1 _ _ _ _ _ _ _ _ _ le_rfl
                    (fun c hc2 => ⟨hargkind2 c hc2, hargwf2 c hc2⟩))
  · intro lits args src cmd rem ctx msg cr hh hsz hargs hex
    cases lits with
    | nil =>
        rw [execChildren] at hex
        have hlt : sizeOf args < N := by
          have : sizeOf ([] : List Node) = 1 := by simp
          omega
        exact (IH _ hlt).2.2 _ _ _ _ _ _ _ _ le_rfl hargs hex
    | cons l rest =>
        rw [execChildren] at hex
        cases he : exec l src cmd rem ctx with
        | done f c => rw [he] at hex; simp at hex
        | fail e =>
            rw [he] at hex
            simp only at hex
            by_cases hi : isIllegalLiteral e
            · simp only [hi, if_true] at hex
              have hlt : sizeOf rest + sizeOf args < N := by
                have : sizeOf (l :: rest) = 1 + sizeOf l + sizeOf rest := by simp
                omega
              exact (IH _ hlt).2.1 _ _ _ _ _ _ _ _ _ le_rfl hargs hex
            · simp only [hi, if_false] at hex
              injection hex with hex2
              subst hex2
              simp [isIllegalLiteral] at hi
  · intro args src cmd rem ctx msg cr hh hsz hargs hex
    cases args with
    | nil =>
        rw [execArgChildren] at hex
        simp at hex
    | cons c cs =>
        rw [execArgChildren] at hex
        have hlt : sizeOf c < N := by
          have : sizeOf (c :: cs) = 1 + sizeOf c + sizeOf cs := by simp
          omega
        obtain ⟨e, hp, hke⟩ := (IH _ hlt).1 _ _ _ _ _ _ _ _ le_rfl (hargs c (by simp)).2 hex
        obtain ⟨ls, hls⟩ := parseKind_illegalLiteral _ _ _ hp hke
        exact absurd hls ((hargs c (by simp)).1 ls)

theorem isIllegalLiteral_shape (e : CmdError) (h : isIllegalLiteral e = true) :
    ∃ msg cr hh, e = .syn .illegalLiteralArgument msg cr hh := by
  cases e with
  | syn k msg cr hh =>
      cases k with
      | illegalLiteralArgument => exact ⟨msg, cr, hh, rfl⟩
      | illegalArgument => simp [isIllegalLiteral] at h
      | numberOutOfRange => simp [isIllegalLiteral] at h
      | emptyText => simp [isIllegalLiteral] at h
  | permissionDenied hint => simp [isIllegalLiteral] at h
  | unknownCommand hint => simp [isIllegalLiteral] at h
  | unknownArgument hint => simp [isIllegalLiteral] at h
  | unknownRootArgument hint => simp [isIllegalLiteral] at h

/-- Literal children are tried in declaration order: the children whose
execution raises IllegalLiteralArgument are skipped, and the first child that
does not raise it decides the outcome, whatever follows it. -/
theorem childDispatch_order (L1 : List Node) (c : Node) (L2 args : List Node)
    (src : Nat) (cmd rem : Str) (ctx : Ctx)
    (h1 : ∀ l ∈ L1, resIllegalLiteral (exec l src cmd rem ctx) = true)
    (hc : resIllegalLiteral (exec c src cmd rem ctx) = false) :
    execChildren (L1 ++ c :: L2) args src cmd rem ctx = exec c src cmd rem ctx := by
  induction L1 with
  | nil =>
      simp only [List.nil_append]
      rw [execChildren]
      cases he : exec c src cmd rem ctx with
      | done f cc => rfl
      | fail e =>
          rw [he] at hc
          simp only [resIllegalLiteral] at hc
          simp [hc]
  | cons l L1x ih =>
      rw [List.cons_append, execChildren]
      have hl := h1 l (by simp)
      cases he : exec l src cmd rem ctx with
      | done f cc => rw [he] at hl; simp [resIllegalLiteral] at hl
      | fail e =>
          rw [he] at hl
          simp only [resIllegalLiteral] at hl
          simp only [hl, if_true]
          exact ih (fun x hx => h1 x (by simp [hx]))

/-- When the next token of the input matches some literal child, the outcome
does not depend on the argument children at all: they are never tried. -/
theorem childDispatch_literalPrecedence (lits args : List Node)
    (src : Nat) (cmd rem : Str) (ctx : Ctx)
    (hwf : ∀ l ∈ lits, WFTree l)
    (hmatch : ∃ c ∈ lits, ∃ ls, c.kindOf = .literal ls ∧ getElement rem ∈ ls) :
    execChildren lits args src cmd rem ctx = execChildren lits [] src cmd rem ctx := by
  induction lits with
  | nil => obtain ⟨c, hcmem, _⟩ := hmatch; simp at hcmem
  | cons l rest ih =>
      rw [execChildren]
      conv_rhs => rw [execChildren]
      cases he : exec l src cmd rem ctx with
      | done f cc => rfl
      | fail e =>
          simp only
          by_cases hi : isIllegalLiteral e
          · simp only [hi, if_true]
            apply ih (fun x hx => hwf x (by simp [hx]))
            obtain ⟨c, hcmem, ls, hkind, htok⟩ := hmatch
            rcases List.mem_cons.mp hcmem with hcl | hcrest
            · exfalso
              subst hcl
              obtain ⟨msg, cr, hh, herr⟩ := isIllegalLiteral_shape e hi
              rw [herr] at he
              obtain ⟨e2, hp, hke⟩ := (exec_illegalLiteral (sizeOf c)).1 c src cmd rem ctx
                msg cr hh le_rfl (hwf c (by simp)) he
              rw [hkind] at hp
              simp [parseKind, htok] at hp
            · exact ⟨c, hcrest, ls, hkind, htok⟩
          · simp [hi]

/-- When every literal child raises IllegalLiteralArgument and the node has
no argument children, UnknownArgument pointing at the end of the input is
raised. -/
theorem childDispatch_unknownArgument (lits : List Node)
    (src : Nat) (cmd rem : Str) (ctx : Ctx)
    (hall : ∀ l ∈ lits, resIllegalLiteral (exec l src cmd rem ctx) = true) :
    execChildren lits [] src cmd rem ctx =
      .fail (.unknownArgument (errorPos cmd cmd.length)) := by
  induction lits with
  | nil => rw [execChildren]; rw [execArgChildren]
  | cons l rest ih =>
      rw [execChildren]
      have hl := hall l (by simp)
      cases he : exec l src cmd rem ctx with
      | done f cc => rw [he] at hl; simp [resIllegalLiteral] at hl
      | fail e =>
          rw [he] at hl
          simp only [resIllegalLiteral] at hl
          simp only [hl, if_true]
          exact ih (fun x hx => hall x (by simp [hx]))

/-- Claim C2: in command dispatch at any node, literal children are tried in
declaration order and an IllegalLiteralArgument raised by a literal child is
swallowed so the next literal child is tried; any other error from a literal
child propagates; when the next token of the input matches a literal child,
no non-literal child is ever tried (the outcome is independent of the
argument children); and when every literal child fails and there is no
non-literal child, UnknownArgument is raised. -/
theorem claim_C2 :
    (∀ (L1 : List Node) (c : Node) (L2 args : List Node) (src : Nat)
        (cmd rem : Str) (ctx : Ctx),
      (∀ l ∈ L1, resIllegalLiteral (exec l src cmd rem ctx) = true) →
      resIllegalLiteral (exec c src cmd rem ctx) = false →
      execChildren (L1 ++ c :: L2) args src cmd rem ctx = exec c src cmd rem ctx) ∧
    (∀ (lits args : List Node) (src : Nat) (cmd rem : Str) (ctx : Ctx),
      (∀ l ∈ lits, WFTree l) →
      (∃ c ∈ lits, ∃ ls, c.kindOf = .literal ls ∧ getElement rem ∈ ls) →
      execChildren lits args src cmd rem ctx = execChildren lits [] src cmd rem ctx) ∧
    (∀ (lits : List Node) (src : Nat) (cmd rem : Str) (ctx : Ctx),
      (∀ l ∈ lits, resIllegalLiteral (exec l src cmd rem ctx) = true) →
      execChildren lits [] src cmd rem ctx =
        .fail (.unknownArgument (errorPos cmd cmd.length))) :=
  ⟨fun L1 c L2 args src cmd rem ctx h1 hc =>
      childDispatch_order L1 c L2 args src cmd rem ctx h1 hc,
   fun lits args src cmd rem ctx hwf hmatch =>
      childDispatch_literalPrecedence lits args src cmd rem ctx hwf hmatch,
   fun lits src cmd rem ctx hall =>
      childDispatch_unknownArgument lits src cmd rem ctx hall⟩

theorem litNode_wf (kw : Str) (cb : Nat) : WFTree (litNode kw cb) := by
  refine WFTree.mk _ _ _ _ _ _ _ ?_ ?_ ?_ ?_ ?_ <;> intro x hx <;> simp at hx

theorem claim_C2_witness :
    (execChildren [litNode ['o','n'] 1, litNode ['o','f'] 2] [intNode ['n'] 3] 0
        ['o','f'] ['o','f'] [] = exec (litNode ['o','f'] 2) 0 ['o','f'] ['o','f'] []) ∧
    (execChildren [litNode ['o','n'] 1, litNode ['o','f'] 2] [intNode ['n'] 3] 0
        ['o','f'] ['o','f'] [] =
      execChildren [litNode ['o','n'] 1, litNode ['o','f'] 2] [] 0 ['o','f'] ['o','f'] []) ∧
    (execChildren [litNode ['o','n'] 1, litNode ['o','f'] 2] [] 0 ['x','x'] ['x','x'] [] =
      .fail (.unknownArgument ['x','x','<','-','-'])) := by
  have hon : exec (litNode ['o','n'] 1) 0 ['o','f'] ['o','f'] [] =
      .fail (.syn .illegalLiteralArgument "Invalid Argument".toList 2 ['o','f','<','-','-']) :=
    (execF_sound 3).1 _ _ _ _ _ _ (by decide)
  have hof : exec (litNode ['o','f'] 2) 0 ['o','f'] ['o','f'] [] = .done 2 [] :=
    (execF_sound 3).1 _ _ _ _ _ _ (by decide)
  have hon2 : exec (litNode ['o','n'] 1) 0 ['x','x'] ['x','x'] [] =
      .fail (.syn .illegalLiteralArgument "Invalid Argument".toList 2 ['x','x','<','-','-']) :=
    (execF_sound 3).1 _ _ _ _ _ _ (by decide)
  have hof2 : exec (litNode ['o','f'] 2) 0 ['x','x'] ['x','x'] [] =
      .fail (.syn .illegalLiteralArgument "Invalid Argument".toList 2 ['x','x','<','-','-']) :=
    (execF_sound 3).1 _ _ _ _ _ _ (by decide)
  refine ⟨?_, ?_, ?_⟩
  · refine claim_C2.1 [litNode ['o','n'] 1] (litNode ['o','f'] 2) [] [intNode ['n'] 3]
      0 ['o','f'] ['o','f'] [] ?_ ?_
    · intro l hl
      rw [List.mem_singleton] at hl
      subst hl
      rw [hon]
      rfl
    · rw [hof]
      rfl
  · refine claim_C2.2.1 [litNode ['o','n'] 1, litNode ['o','f'] 2] [intNode ['n'] 3]
      0 ['o','f'] ['o','f'] [] ?_ ?_
    · intro l hl
      rcases List.mem_cons.mp hl with h | h
      · subst h; exact litNode_wf _ _
      · rw [List.mem_singleton] at h; subst h; exact litNode_wf _ _
    · exact ⟨litNode ['o','f'] 2, by simp, [['o','f']], rfl, by decide⟩
  · refine claim_C2.2.2 [litNode ['o','n'] 1, litNode ['o','f'] 2] 0 ['x','x'] ['x','x'] [] ?_
    intro l hl
    rcases List.mem_cons.mp hl with h | h
    · subst h; rw [hon2]; rfl
    · rw [List.mem_singleton] at h; subst h; rw [hof2]; rfl

/-- Claim C3 counterexample: with literal children on and off plus an Integer
child, the input whose next token is maybe does not raise UnknownArgument:
the Integer child raises IllegalArgument (Invalid integer) and the dispatcher
propagates it as-is. -/
theorem claim_C3_counterexample :
    resUnknownArgument (execute c3root 0 "t maybe".toList) = false ∧
    execute c3root 0 "t maybe".toList =
      .fail (.syn .illegalArgument "Invalid integer".toList 5 "t maybe<--".toList) := by
  have h : exec c3root 0 "t maybe".toList "t maybe".toList [] =
      .fail (.syn .illegalArgument "Invalid integer".toList 5 "t maybe<--".toList) :=
    (execF_sound 9).1 _ _ _ _ _ _ (by decide)
  rw [execute, h]
  exact ⟨rfl, rfl⟩

/-- Claim C3 (amended): for a root whose children are the literals on and off
plus one Integer child, input whose next token is 7 takes the integer path,
binding 7; input whose next token is maybe raises IllegalArgument (invalid
integer) from the Integer child, not UnknownArgument. -/
theorem claim_C3 :
    execute c3root 0 "t 7".toList = .done 3 [("n".toList, .int 7)] ∧
    execute c3root 0 "t maybe".toList =
      .fail (.syn .illegalArgument "Invalid integer".toList 5 "t maybe<--".toList) := by
  have h1 : exec c3root 0 "t 7".toList "t 7".toList [] = .done 3 [("n".toList, .int 7)] :=
    (execF_sound 9).1 _ _ _ _ _ _ (by decide)
  have h2 : exec c3root 0 "t maybe".toList "t maybe".toList [] =
      .fail (.syn .illegalArgument "Invalid integer".toList 5 "t maybe<--".toList) :=
    (execF_sound 9).1 _ _ _ _ _ _ (by decide)
  constructor
  · rw [execute, h1]
  · rw [execute, h2]

theorem getElement_length_le (t : Str) : (getElement t).length ≤ t.length := by
  induction t with
  | nil => simp [getElement]
  | cons c rest ih =>
      rw [getElement]
      by_cases hc : c = ' '
      · simp [hc, List.takeWhile]
      · simp only [List.takeWhile]
        have : (fun c => decide (c ≠ ' ')) c = true := by simp [hc]
        simp only [this]
        simpa [getElement] using ih

theorem quotedParse_charRead_le : ∀ (ea : Bool) (full rest : Str) (i : Nat)
    (collected : Str) (escaped : Bool) (e : ParseErr),
    i + rest.length = full.length →
    quotedParse ea full rest i collected escaped = .error e →
    e.charRead ≤ full.length := by
  intro ea full rest
  induction rest with
  | nil =>
      intro i collected escaped e hlen h
      rw [quotedParse] at h
      injection h with h2
      subst h2
      simp
  | cons ch rest ih =>
      intro i collected escaped e hlen h
      have hlen2 : (i + 1) + rest.length = full.length := by simp at hlen; omega
      have hi1 : i + 1 ≤ full.length := by simp at hlen; omega
      rw [quotedParse] at h
      by_cases hesc : escaped
      · simp only [hesc, if_true] at h
        by_cases hch : ch = '\\' ∨ ch = '"'
        · simp only [hch, if_true] at h
          exact ih _ _ _ _ hlen2 h
        · simp only [hch, if_false] at h
          injection h with h2
          subst h2
          exact hi1
      · simp only [hesc, if_false] at h
        by_cases hbs : ch = '\\'
        · simp only [hbs, if_true] at h
          exact ih _ _ _ _ hlen2 h
        · simp only [hbs, if_false] at h
          by_cases hq : ch = '"'
          · simp only [hq, if_true] at h
            by_cases hemp : ea = false ∧ collected.length = 0
            · simp only [hemp, if_true] at h
              injection h with h2
              subst h2
              exact hi1
            · simp only [hemp, if_false] at h
              cases h
          · simp only [hq, if_false] at h
            exact ih _ _ _ _ hlen2 h

theorem parseKind_charRead_le : ∀ (k : NKind) (t : Str) (e : ParseErr),
    parseKind k t = .error e → e.charRead ≤ t.length := by
  intro k t e h
  cases k with
  | literal ls =>
      simp only [parseKind] at h
      split at h
      · cases h
      · injection h with h2
        subst h2
        exact getElement_length_le t
  | integer mn mx =>
      simp only [parseKind] at h
      cases hi : parseIntToken (getElement t) with
      | some value =>
          simp only [hi] at h
          split at h
          · injection h with h2
            subst h2
            exact getElement_length_le t
          · cases h
      | none =>
          simp only [hi] at h
          injection h with h2
          subst h2
          exact getElement_length_le t
  | text => simp only [parseKind] at h; cases h
  | quotableText ea =>
      simp only [parseKind] at h
      cases t with
      | nil => simp at h
      | cons c rest =>
          by_cases hc : c = '"'
          · simp only [hc, if_true] at h
            subst hc
            have := quotedParse_charRead_le ea ('\x22' :: rest) rest 1 [] false e (by simp; omega) h
            simpa using this
          · simp only [hc, if_false] at h
            cases h
  | greedyText => simp only [parseKind] at h; cases h

theorem drop_suffix (n : Nat) (l : Str) : ∃ q, l = q ++ l.drop n :=
  ⟨l.take n, (List.take_append_drop n l).symm⟩

theorem removeDividers_suffix (l : Str) : ∃ q, l = q ++ removeDividers l :=
  ⟨l.takeWhile (fun c => c = ' '),
    by rw [removeDividers]; exact (List.takeWhile_append_dropWhile (fun c => c = ' ') l).symm⟩

/-- Where syntax-error hints come from: any CommandSyntaxError escaping
`_execute` was raised by the parse of some reachable node on the suffix at
which that node ran, and its hint is the prefix consumed before that suffix
plus char_read, followed by the marker. -/
theorem exec_syn_hint : ∀ N : Nat,
    (∀ n src cmd rem ctx k msg cr hint, sizeOf n ≤ N →
      (∃ pre, cmd = pre ++ rem) →
      exec n src cmd rem ctx = .fail (.syn k msg cr hint) →
      ∃ (pre2 rem2 : Str) (m : Node), cmd = pre2 ++ rem2 ∧ Desc m n ∧
        parseKind m.kindOf rem2 = .error ⟨k, msg, cr⟩ ∧ cr ≤ rem2.length ∧
        hint = cmd.take (pre2.length + cr) ++ "<--".toList) ∧
    (∀ lits args src cmd rem ctx k msg cr hint, sizeOf lits + sizeOf args ≤ N →
      (∃ pre, cmd = pre ++ rem) →
      execChildren lits args src cmd rem ctx = .fail (.syn k msg cr hint) →
      ∃ (pre2 rem2 : Str) (m c : Node), cmd = pre2 ++ rem2 ∧
        (c ∈ lits ∨ c ∈ args) ∧ Desc m c ∧
        parseKind m.kindOf rem2 = .error ⟨k, msg, cr⟩ ∧ cr ≤ rem2.length ∧
        hint = cmd.take (pre2.length + cr) ++ "<--".toList) ∧
    (∀ args src cmd rem ctx k msg cr hint, sizeOf args ≤ N →
      (∃ pre, cmd = pre ++ rem) →
      execArgChildren args src cmd rem ctx = .fail (.syn k msg cr hint) →
      ∃ (pre2 rem2 : Str) (m c : Node), cmd = pre2 ++ rem2 ∧
        c ∈ args ∧ Desc m c ∧
        parseKind m.kindOf rem2 = .error ⟨k, msg, cr⟩ ∧ cr ≤ rem2.length ∧
        hint = cmd.take (pre2.length + cr) ++ "<--".toList) := by
  intro N
  induction N using Nat.strong_induction_on with
  | _ N IH =>
  refine ⟨?_, ?_, ?_⟩
  · intro n src cmd rem ctx k msg cr hint hsz hsuf hex
    obtain ⟨pre, hpre⟩ := hsuf
    obtain ⟨name, kind, lits, args, cb, req, rd⟩ := n
    rw [exec] at hex
    cases hp : parseKind kind rem with
    | error e =>
        rw [hp] at hex
        simp only at hex
        injection hex with hex2
        injection hex2 with hk hm hc hhint
        refine ⟨pre, rem, .mk name kind lits args cb req rd, hpre, Desc.refl _, ?_, ?_, ?_⟩
        · rw [Node.kindOf]
          rw [hp]
          rw [← hk, ← hm, ← hc]
        · rw [← hc]
          exact parseKind_charRead_le _ _ _ hp
        · rw [← hhint, errorPos]
          have hlen : cmd.length - rem.length = pre.length := by
            rw [hpre]; simp
          rw [hlen, hc]
    | ok result =>
        rw [hp] at hex
        simp only at hex
        by_cases hreq : req src = false
        · simp only [hreq, if_true] at hex
          simp at hex
        · simp only [hreq, if_false] at hex
          by_cases htr : (removeDividers (rem.drop result.charRead)).length = 0
          · simp only [htr, if_true] at hex
            cases cb with
            | some f => simp at hex
            | none => simp at hex
          · simp only [htr, if_false] at hex
            have hsuf2 : ∃ pre3,
                cmd = pre3 ++ removeDividers (rem.drop result.charRead) := by
              obtain ⟨q1, hq1⟩ := drop_suffix result.charRead rem
              obtain ⟨q2, hq2⟩ := removeDividers_suffix (rem.drop result.charRead)
              refine ⟨pre ++ q1 ++ q2, ?_⟩
              calc cmd = pre ++ rem := hpre
                _ = pre ++ (q1 ++ rem.drop result.charRead) := congrArg (pre ++ ·) hq1
                _ = pre ++ (q1 ++ (q2 ++ removeDividers (rem.drop result.charRead))) :=
                    congrArg (fun x => pre ++ (q1 ++ x)) hq2
                _ = pre ++ q1 ++ q2 ++ removeDividers (rem.drop result.charRead) := by
                    simp [List.append_assoc]
            cases rd with
            | none =>
                simp only at hex
                by_cases hc : hasChildrenL lits args = false
                · simp only [hc, if_true] at hex
                  simp at hex
                · simp only [hc, if_false] at hex
                  have hlt : sizeOf lits + sizeOf args < N := by
                    have := Node.mk.sizeOf_spec name kind lits args cb req none
                    omega
                  obtain ⟨pre2, rem2, m, c, hcmd, hmem, hdesc, hpk, hcr, hhint⟩ :=
                    (IH _ hlt).2.1 _ _ _ _ _ _ _ _ _ _ le_rfl hsuf2 hex
                  refine ⟨pre2, rem2, m, hcmd, ?_, hpk, hcr, hhint⟩
                  rcases hmem with hml | hma
                  · exact Desc.viaLit _ (by rw [Node.childrenLiteralOf]; exact hml) hdesc
                  · exact Desc.viaArg _ (by rw [Node.childrenOf]; exact hma) hdesc
            | some d =>
                obtain ⟨n2, k2, lits2, args2, cb2, req2, rd2⟩ := d
                simp only at hex
                by_cases hc : hasChildrenL lits2 args2 = false
                · simp only [hc, if_true] at hex
                  simp at hex
                · simp only [hc, if_false] at hex
                  have hlt : sizeOf lits2 + sizeOf args2 < N := by
                    have h1 := Node.mk.sizeOf_spec name kind lits args cb req
                      (some (Node.mk n2 k2 lits2 args2 cb2 req2 rd2))
                    have h2 := Node.mk.sizeOf_spec n2 k2 lits2 args2 cb2 req2 rd2
                    have h3 : sizeOf (some (Node.mk n2 k2 lits2 args2 cb2 req2 rd2)) =
                        1 + sizeOf (Node.mk n2 k2 lits2 args2 cb2 req2 rd2) := by simp
                    omega
                  obtain ⟨pre2, rem2, m, c, hcmd, hmem, hdesc, hpk, hcr, hhint⟩ :=
                    (IH _ hlt).2.1 _ _ _ _ _ _ _ _ _ _ le_rfl hsuf2 hex
                  refine ⟨pre2, rem2, m, hcmd, ?_, hpk, hcr, hhint⟩
                  refine Desc.viaRedirect _ (by rw [Node.redirectOf]) ?_
                  rcases hmem with hml | hma
                  · exact Desc.viaLit _ (by rw [Node.childrenLiteralOf]; exact hml) hdesc
                  · exact Desc.viaArg _ (by rw [Node.childrenOf]; exact hma) hdesc
  · intro lits args src cmd rem ctx k msg cr hint hsz hsuf hex
    cases lits with
    | nil =>
        rw [execChildren] at hex
        have hlt : sizeOf args < N := by
          have : sizeOf ([] : List Node) = 1 := by simp
          omega
        obtain ⟨pre2, rem2, m, c, hcmd, hmem, hdesc, hpk, hcr, hhint⟩ :=
          (IH _ hlt).2.2 _ _ _ _ _ _ _ _ _ le_rfl hsuf hex
        exact ⟨pre2, rem2, m, c, hcmd, Or.inr hmem, hdesc, hpk, hcr, hhint⟩
    | cons l rest =>
        rw [execChildren] at hex
        cases he : exec l src cmd rem ctx with
        | done f c => rw [he] at hex; simp at hex
        | fail e =>
            rw [he] at hex
            simp only at hex
            by_cases hi : isIllegalLiteral e
            · simp only [hi, if_true] at hex
              have hlt : sizeOf rest + sizeOf args < N := by
                have : sizeOf (l :: rest) = 1 + sizeOf l + sizeOf rest := by simp
                omega
              obtain ⟨pre2, rem2, m, c, hcmd, hmem, hdesc, hpk, hcr, hhint⟩ :=
                (IH _ hlt).2.1 _ _ _ _ _ _ _ _ _ _ le_rfl hsuf hex
              refine ⟨pre2, rem2, m, c, hcmd, ?_, hdesc, hpk, hcr, hhint⟩
              rcases hmem with hml | hma
              · exact Or.inl (by simp [hml])
              · exact Or.inr hma
            · simp only [hi, if_false] at hex
              injection hex with hex2
              subst hex2
              have hlt : sizeOf l < N := by
                have : sizeOf (l :: rest) = 1 + sizeOf l + sizeOf rest := by simp
                omega
              obtain ⟨pre2, rem2, m, hcmd, hdesc, hpk, hcr, hhint⟩ :=
                (IH _ hlt).1 _ _ _ _ _ _ _ _ _ le_rfl hsuf he
              exact ⟨pre2, rem2, m, l, hcmd, Or.inl (by simp), hdesc, hpk, hcr, hhint⟩
  · intro args src cmd rem ctx k msg cr hint hsz hsuf hex
    cases args with
    | nil =>
        rw [execArgChildren] at hex
        simp at hex
    | cons c cs =>
        rw [execArgChildren] at hex
        have hlt : sizeOf c < N := by
          have : sizeOf (c :: cs) = 1 + sizeOf c + sizeOf cs := by simp
          omega
        obtain ⟨pre2, rem2, m, hcmd, hdesc, hpk, hcr, hhint⟩ :=
          (IH _ hlt).1 _ _ _ _ _ _ _ _ _ le_rfl hsuf hex
        exact ⟨pre2, rem2, m, c, hcmd, by simp, hdesc, hpk, hcr, hhint⟩

/-- Claim C4: for every command string and every CommandSyntaxError raised by
a node's parse during dispatch, the fail_position_hint equals the prefix of
the command of length (characters consumed before that node's token began,
plus the error's char_read) followed by the marker. -/
theorem claim_C4 : ∀ (n : Node) (src : Nat) (cmd rem : Str) (ctx : Ctx)
    (k : SynKind) (msg : Str) (cr : Nat) (hint : Str),
    (∃ pre, cmd = pre ++ rem) →
    exec n src cmd rem ctx = .fail (.syn k msg cr hint) →
    ∃ (pre2 rem2 : Str) (m : Node), cmd = pre2 ++ rem2 ∧ Desc m n ∧
      parseKind m.kindOf rem2 = .error ⟨k, msg, cr⟩ ∧ cr ≤ rem2.length ∧
      hint = cmd.take (pre2.length + cr) ++ "<--".toList :=
  fun n src cmd rem ctx k msg cr hint hsuf hex =>
    (exec_syn_hint (sizeOf n)).1 n src cmd rem ctx k msg cr hint le_rfl hsuf hex

theorem claim_C4_witness :
    ∃ (pre2 rem2 : Str) (m : Node), "t maybe".toList = pre2 ++ rem2 ∧ Desc m c3root ∧
      parseKind m.kindOf rem2 =
        .error ⟨.illegalArgument, "Invalid integer".toList, 5⟩ ∧ 5 ≤ rem2.length ∧
      "t maybe<--".toList = ("t maybe".toList).take (pre2.length + 5) ++ "<--".toList :=
  claim_C4 c3root 0 "t maybe".toList "t maybe".toList [] .illegalArgument
    "Invalid integer".toList 5 "t maybe<--".toList ⟨[], rfl⟩
    ((execF_sound 9).1 _ _ _ _ _ _ (by decide))

/-- Claim C9: after every trigger_listener invocation returns, whether the
listener body ran to completion or raised, the thread-local current plugin
equals None; it is reset to None rather than restored, so after a nested
trigger_listener the outer listener observes no current plugin: a probe
right after the nested call records None, whatever the current plugin was
before. -/
theorem claim_C9 :
    (∀ (st : TLState) (plugin : Str) (body : List Act),
      (triggerListener st plugin body).tls = none) ∧
    (∀ (st : TLState) (plugin : Str) (body rest : List Act),
      runBody st (.trigger plugin body :: .probe :: rest) =
        runBody ⟨none, (triggerListener st plugin body).trace ++ [none]⟩ rest) := by
  have h1 : ∀ (st : TLState) (plugin : Str) (body : List Act),
      (triggerListener st plugin body).tls = none := by
    intro st plugin body
    rw [triggerListener]
  refine ⟨h1, ?_⟩
  intro st plugin body rest
  rw [runBody]
  rw [runBody]
  rw [h1]

theorem warnTimes_cons (t : Int) (k : LogKind) (tr : List (Int × LogKind)) :
    warnTimes ((t, k) :: tr) =
      if k = .warning then t :: warnTimes tr else warnTimes tr := by
  cases k <;> simp [warnTimes, List.filter_cons]

/-- Any warning emitted by a run that starts with a recorded last-warning
time comes at least one interval later. -/
theorem warnHead_ge : ∀ (evts : List (Int × Bool)) (st : IRMState) (u : Int),
    st.lastQueueFullWarnTime = some u →
    ∀ t', (warnTimes (runReactor st evts)).head? = some t' →
    u + REACTOR_QUEUE_FULL_WARN_INTERVAL_SEC ≤ t' := by
  intro evts
  induction evts with
  | nil =>
      intro st u hu t' ht'
      simp [runReactor, warnTimes] at ht'
  | cons e rest ih =>
      intro st u hu t' ht'
      obtain ⟨t, full⟩ := e
      rw [runReactor] at ht'
      cases full with
      | false =>
          have hstep : put_info false t st = (st, .enqueued) := by simp [put_info]
          rw [hstep] at ht'
          rw [warnTimes_cons] at ht'
          simp only [if_neg (by simp : ¬(LogKind.enqueued = LogKind.warning))] at ht'
          exact ih st u hu t' ht'
      | true =>
          by_cases hge : t - u ≥ REACTOR_QUEUE_FULL_WARN_INTERVAL_SEC
          · have hstep : put_info true t st = (⟨some t⟩, .warning) := by
              simp [put_info, hu, hge]
            rw [hstep] at ht'
            rw [warnTimes_cons] at ht'
            simp only [reduceIte] at ht'
            rw [List.head?_cons] at ht'
            injection ht' with ht2
            omega
          · have hstep : put_info true t st = (st, .debug) := by
              simp only [put_info, if_neg (by simp : ¬(true = false)), hu]
              rw [if_neg hge]
            rw [hstep] at ht'
            rw [warnTimes_cons] at ht'
            simp only [if_neg (by simp : ¬(LogKind.debug = LogKind.warning))] at ht'
            exact ih st u hu t' ht'

/-- Claim C8: when the reactor queue is full, put_info logs a warning
exactly when no warning was ever logged or at least
REACTOR_QUEUE_FULL_WARN_INTERVAL_SEC seconds have passed since the last one,
and logs at debug level exactly otherwise; when the queue is not full the
task is enqueued with no log; and in every run consecutive warnings are at
least one interval apart, so at most one warning is emitted per interval
window. -/
theorem claim_C8 :
    (∀ (st : IRMState) (t : Int),
      ((put_info true t st).2 = .warning ↔
        (st.lastQueueFullWarnTime = none ∨
          ∃ u, st.lastQueueFullWarnTime = some u ∧
            t - u ≥ REACTOR_QUEUE_FULL_WARN_INTERVAL_SEC))) ∧
    (∀ (st : IRMState) (t : Int),
      ((put_info true t st).2 = .debug ↔
        ∃ u, st.lastQueueFullWarnTime = some u ∧
          t - u < REACTOR_QUEUE_FULL_WARN_INTERVAL_SEC)) ∧
    (∀ (st : IRMState) (t : Int), put_info false t st = (st, .enqueued)) ∧
    (∀ (st : IRMState) (evts : List (Int × Bool)),
      List.Chain' (fun a b => a + REACTOR_QUEUE_FULL_WARN_INTERVAL_SEC ≤ b)
        (warnTimes (runReactor st evts))) := by
  refine ⟨?_, ?_, ?_, ?_⟩
  · intro st t
    obtain ⟨last⟩ := st
    cases last with
    | none => simp [put_info]
    | some u =>
        by_cases hge : t - u ≥ REACTOR_QUEUE_FULL_WARN_INTERVAL_SEC
        · have hstep : put_info true t ⟨some u⟩ = (⟨some t⟩, .warning) := by
            simp [put_info, hge]
          rw [hstep]
          simp only [true_iff]
          exact Or.inr ⟨u, rfl, hge⟩
        · have hstep : put_info true t ⟨some u⟩ = (⟨some u⟩, .debug) := by
            simp only [put_info, if_neg (by simp : ¬(true = false))]
            rw [if_neg hge]
          rw [hstep]
          constructor
          · intro hcon
            cases hcon
          · intro hcon
            rcases hcon with hnone | ⟨v, hv, hgev⟩
            · cases hnone
            · injection hv with hv2
              subst hv2
              exact absurd hgev hge
  · intro st t
    obtain ⟨last⟩ := st
    cases last with
    | none =>
        have hstep : put_info true t ⟨none⟩ = (⟨some t⟩, .warning) := by simp [put_info]
        rw [hstep]
        constructor
        · intro hcon; cases hcon
        · intro hcon
          obtain ⟨u, hu, _⟩ := hcon
          cases hu
    | some u =>
        by_cases hge : t - u ≥ REACTOR_QUEUE_FULL_WARN_INTERVAL_SEC
        · have hstep : put_info true t ⟨some u⟩ = (⟨some t⟩, .warning) := by
            simp [put_info, hge]
          rw [hstep]
          constructor
          · intro hcon; cases hcon
          · intro hcon
            obtain ⟨v, hv, hltv⟩ := hcon
            injection hv with hv2
            subst hv2
            omega
        · have hstep : put_info true t ⟨some u⟩ = (⟨some u⟩, .debug) := by
            simp only [put_info, if_neg (by simp : ¬(true = false))]
            rw [if_neg hge]
          rw [hstep]
          simp only [true_iff]
          exact ⟨u, rfl, by omega⟩
  · intro st t
    simp [put_info]
  · intro st evts
    induction evts generalizing st with
    | nil => simp [runReactor, warnTimes]
    | cons e rest ih =>
        obtain ⟨t, full⟩ := e
        rw [runReactor]
        cases full with
        | false =>
            have hstep : put_info false t st = (st, .enqueued) := by simp [put_info]
            rw [hstep]
            rw [warnTimes_cons]
            simp only [if_neg (by simp : ¬(LogKind.enqueued = LogKind.warning))]
            exact ih st
        | true =>
            obtain ⟨last⟩ := st
            cases last with
            | none =>
                have hstep : put_info true t ⟨none⟩ = (⟨some t⟩, .warning) := by
                  simp [put_info]
                rw [hstep]
                rw [warnTimes_cons]
                simp only [reduceIte]
                rw [List.chain'_cons']
                refine ⟨?_, ih _⟩
                intro b hb
                exact warnHead_ge rest ⟨some t⟩ t rfl b hb
            | some u =>
                by_cases hge : t - u ≥ REACTOR_QUEUE_FULL_WARN_INTERVAL_SEC
                · have hstep : put_info true t ⟨some u⟩ = (⟨some t⟩, .warning) := by
                    simp [put_info, hge]
                  rw [hstep]
                  rw [warnTimes_cons]
                  simp only [reduceIte]
                  rw [List.chain'_cons']
                  refine ⟨?_, ih _⟩
                  intro b hb
                  exact warnHead_ge rest ⟨some t⟩ t rfl b hb
                · have hstep : put_info true t ⟨some u⟩ = (⟨some u⟩, .debug) := by
                    simp only [put_info, if_neg (by simp : ¬(true = false))]
                    rw [if_neg hge]
                  rw [hstep]
                  rw [warnTimes_cons]
                  simp only [if_neg (by simp : ¬(LogKind.debug = LogKind.warning))]
                  exact ih _

theorem claim_C8_witness :
    ((put_info true 10 ⟨some 2⟩).2 = .warning ↔
      ((⟨some 2⟩ : IRMState).lastQueueFullWarnTime = none ∨
        ∃ u, (⟨some 2⟩ : IRMState).lastQueueFullWarnTime = some u ∧
          (10 : Int) - u ≥ REACTOR_QUEUE_FULL_WARN_INTERVAL_SEC)) ∧
    ((put_info true 4 ⟨some 2⟩).2 = .debug ↔
      ∃ u, (⟨some 2⟩ : IRMState).lastQueueFullWarnTime = some u ∧
        (4 : Int) - u < REACTOR_QUEUE_FULL_WARN_INTERVAL_SEC) ∧
    List.Chain' (fun a b => a + REACTOR_QUEUE_FULL_WARN_INTERVAL_SEC ≤ b)
      (warnTimes (runReactor ⟨none⟩ [(0, true), (2, true), (6, true), (11, true)])) :=
  ⟨claim_C8.1 ⟨some 2⟩ 10,
   claim_C8.2.1 ⟨some 2⟩ 4,
   claim_C8.2.2.2 ⟨none⟩ [(0, true), (2, true), (6, true), (11, true)]⟩

theorem depsFold_eq (entries : List (Str × Str))
    (acc : List (Str × VersionRequirement)) :
    entries.foldl (fun acc e =>
        match parseRequirement e.2 with
        | some r => acc ++ [(e.1, r)]
        | none => acc) acc =
      acc ++ entries.filterMap (fun e => (parseRequirement e.2).map (fun r => (e.1, r))) := by
  induction entries generalizing acc with
  | nil => simp
  | cons e rest ih =>
      rw [List.foldl_cons, List.filterMap_cons]
      cases hp : parseRequirement e.2 with
      | none => simp only [hp]; rw [ih]; rfl
      | some r => simp only [hp]; rw [ih]; simp

/-- Claim C10: constructing MetaData never fails because of a malformed
dependency requirement: a dependency entry belongs to the constructed
MetaData exactly when its requirement string parses, so malformed entries
are silently omitted and wellformed entries are kept. -/
theorem claim_C10 : ∀ (fileName : Str) (data : Option PyMetaDict) (pid : Str)
    (r : VersionRequirement),
    (pid, r) ∈ (mkMetaData fileName data).dependencies ↔
      ∃ reqStr, (pid, reqStr) ∈ (data.getD ⟨none, none, []⟩).dependencies ∧
        parseRequirement reqStr = some r := by
  intro fileName data pid r
  show (pid, r) ∈ (mkMetaData fileName data).dependencies ↔ _
  have hdeps : (mkMetaData fileName data).dependencies =
      (data.getD ⟨none, none, []⟩).dependencies.filterMap
        (fun e => (parseRequirement e.2).map (fun r => (e.1, r))) := by
    rw [mkMetaData]
    simp only
    rw [depsFold_eq]
    simp
  rw [hdeps]
  rw [List.mem_filterMap]
  constructor
  · rintro ⟨⟨p2, req2⟩, hmem, hmap⟩
    rw [Option.map_eq_some'] at hmap
    obtain ⟨r2, hr2, heq⟩ := hmap
    injection heq with h1 h2
    subst h1
    subst h2
    exact ⟨req2, hmem, hr2⟩
  · rintro ⟨reqStr, hmem, hp⟩
    exact ⟨(pid, reqStr), hmem, by rw [hp]; rfl⟩

theorem claim_C10_witness :
    (("dep".toList, VersionRequirement.mk [⟨.gev, ⟨1, 0, 0, none⟩⟩]) ∈
        (mkMetaData "a.py".toList (some ⟨some "a".toList, some "1.0.0".toList,
          [("dep".toList, ">=1.0.0".toList), ("bad".toList, "oops??".toList)]⟩)).dependencies ↔
      ∃ reqStr, ("dep".toList, reqStr) ∈
          ((some (PyMetaDict.mk (some "a".toList) (some "1.0.0".toList)
            [("dep".toList, ">=1.0.0".toList), ("bad".toList, "oops??".toList)])).getD
              ⟨none, none, []⟩).dependencies ∧
        parseRequirement reqStr = some (VersionRequirement.mk [⟨.gev, ⟨1, 0, 0, none⟩⟩])) :=
  claim_C10 "a.py".toList (some ⟨some "a".toList, some "1.0.0".toList,
    [("dep".toList, ">=1.0.0".toList), ("bad".toList, "oops??".toList)]⟩) "dep".toList
    (VersionRequirement.mk [⟨.gev, ⟨1, 0, 0, none⟩⟩])

/-- Claim C5: loading a plugin file whose metadata id equals the id of an
already-registered plugin returns failure; the new plugin object is
unloaded and removed (it lands in the discard pool in state UNLOADED) and is
never added to the plugin map or the file-path map; the incumbent entries
and states are untouched since the whole state except the discard pool is
unchanged. -/
theorem claim_C5 : ∀ (env : Env) (s : PMState) (fp : Str),
    (env.beh fp).loadOk = true →
    (env.beh fp).metaId ∈ pids s.plugins →
    loadPluginFile env s fp =
      ({ s with discarded := s.discarded ++
          [{ pid := (env.beh fp).metaId, filePath := fp, state := .unloaded }] }, none) ∧
    (loadPluginFile env s fp).1.plugins = s.plugins ∧
    (loadPluginFile env s fp).1.pluginFilePath = s.pluginFilePath ∧
    (loadPluginFile env s fp).2 = none := by
  intro env s fp hload hmem
  have hsome : ∃ q, s.plugins.find? (fun q => q.pid = (env.beh fp).metaId) = some q := by
    rw [← Option.isSome_iff_exists]
    rw [List.find?_isSome]
    rw [pids] at hmem
    obtain ⟨p, hp, hpe⟩ := List.mem_map.mp hmem
    exact ⟨p, hp, by simp [hpe]⟩
  obtain ⟨q, hq⟩ := hsome
  have hmain : loadPluginFile env s fp = ({ s with discarded := s.discarded ++
      [{ pid := (env.beh fp).metaId, filePath := fp, state := .unloaded }] }, none) := by
    rw [loadPluginFile]
    rw [if_neg (by rw [hload]; simp)]
    simp only [hq]
  refine ⟨hmain, ?_, ?_, ?_⟩ <;> rw [hmain]

theorem claim_C5_witness :
    loadPluginFile c5env c5state "b.py".toList =
      ({ c5state with discarded := c5state.discarded ++
          [{ pid := (c5env.beh "b.py".toList).metaId, filePath := "b.py".toList,
             state := .unloaded }] }, none) ∧
    (loadPluginFile c5env c5state "b.py".toList).1.plugins = c5state.plugins ∧
    (loadPluginFile c5env c5state "b.py".toList).1.pluginFilePath =
      c5state.pluginFilePath ∧
    (loadPluginFile c5env c5state "b.py".toList).2 = none :=
  claim_C5 c5env c5state "b.py".toList (by decide) (by decide)

/-- Claim C6: a plugin that raises during unload is still removed from both
maps (the exception is swallowed, the removal happens in the finally branch)
and the operation records failure; a plugin that raises during load yields
failure with the plugin map and the file-path map unchanged. -/
theorem claim_C6 : ∀ (env : Env) (s : PMState) (p : Plugin) (fp : Str),
    ((env.beh p.filePath).unloadOk = false →
      (unloadPluginObj env s p).2 = false ∧
      (unloadPluginObj env s p).1.plugins = s.plugins.filter (fun q => q.pid ≠ p.pid) ∧
      (unloadPluginObj env s p).1.pluginFilePath =
        s.pluginFilePath.filter (fun e => e.1 ≠ p.filePath) ∧
      p.pid ∉ pids (unloadPluginObj env s p).1.plugins ∧
      (unloadPluginObj env s p).1.evicted =
        s.evicted ++ [{ p with state := .unloading }]) ∧
    ((env.beh fp).loadOk = false → loadPluginFile env s fp = (s, none)) := by
  intro env s p fp
  constructor
  · intro hun
    refine ⟨by rw [unloadPluginObj, hun], rfl, rfl, ?_, rfl⟩
    intro hmem
    rw [pids] at hmem
    obtain ⟨q, hqmem, hqe⟩ := List.mem_map.mp hmem
    have := List.mem_filter.mp hqmem
    simp [hqe] at this
  · intro hload
    rw [loadPluginFile]
    rw [if_pos hload]

theorem claim_C6_witness :
    (((c5env.beh "nope".toList).unloadOk = false →
      (unloadPluginObj c5env c5state ⟨"z".toList, "nope".toList, .ready⟩).2 = false ∧
      (unloadPluginObj c5env c5state ⟨"z".toList, "nope".toList, .ready⟩).1.plugins =
        c5state.plugins.filter (fun q => q.pid ≠ "z".toList) ∧
      (unloadPluginObj c5env c5state ⟨"z".toList, "nope".toList, .ready⟩).1.pluginFilePath =
        c5state.pluginFilePath.filter (fun e => e.1 ≠ "nope".toList) ∧
      "z".toList ∉ pids
        (unloadPluginObj c5env c5state ⟨"z".toList, "nope".toList, .ready⟩).1.plugins ∧
      (unloadPluginObj c5env c5state ⟨"z".toList, "nope".toList, .ready⟩).1.evicted =
        c5state.evicted ++ [⟨"z".toList, "nope".toList, .unloading⟩]) ∧
    ((c6env.beh "b.py".toList).loadOk = false →
      loadPluginFile c6env c5state "b.py".toList = (c5state, none))) ∧
    loadPluginFile c6env c5state "b.py".toList = (c5state, none) :=
  ⟨⟨(claim_C6 c5env c5state ⟨"z".toList, "nope".toList, .ready⟩ "b.py".toList).1,
    (claim_C6 c6env c5state ⟨"z".toList, "nope".toList, .ready⟩ "b.py".toList).2⟩,
   (claim_C6 c6env c5state ⟨"z".toList, "nope".toList, .ready⟩ "b.py".toList).2 (by decide)⟩

theorem collectNew_noop : ∀ (env : Env) (filter : Str → Bool) (files : List Str)
    (s : PMState) (r : SingleOperationResult),
    (∀ f ∈ files, containsPluginFile s f = true) →
    files.foldl (loadStep env filter) (s, r) = (s, r) := by
  intro env filter files
  induction files with
  | nil => intro s r _; rfl
  | cons f rest ih =>
      intro s r h
      rw [List.foldl_cons]
      have hstep : loadStep env filter (s, r) f = (s, r) := by
        rw [loadStep]
        rw [if_neg]
        intro hcon
        rw [h f (by simp)] at hcon
        simp at hcon
      rw [hstep]
      exact ih s r (fun f2 hf2 => h f2 (by simp [hf2]))

theorem removeFold_noop : ∀ (env : Env) (filter : Plugin → Bool) (ps : List Plugin)
    (s : PMState) (r : SingleOperationResult),
    (∀ p ∈ ps, filter p = false) →
    ps.foldl (removeStep env filter) (s, r) = (s, r) := by
  intro env filter ps
  induction ps with
  | nil => intro s r _; rfl
  | cons p rest ih =>
      intro s r h
      rw [List.foldl_cons]
      have hstep : removeStep env filter (s, r) p = (s, r) := by
        rw [removeStep]
        rw [if_neg]
        rw [h p (by simp)]
        simp
      rw [hstep]
      exact ih s r (fun p2 hp2 => h p2 (by simp [hp2]))

theorem reloadFold_noop : ∀ (env : Env) (filter : Plugin → Bool) (ps : List Plugin)
    (s : PMState) (r : SingleOperationResult),
    (∀ p ∈ ps, filter p = false) →
    ps.foldl (reloadStep env filter) (s, r) = (s, r) := by
  intro env filter ps
  induction ps with
  | nil => intro s r _; rfl
  | cons p rest ih =>
      intro s r h
      rw [List.foldl_cons]
      have hstep : reloadStep env filter (s, r) p = (s, r) := by
        rw [reloadStep]
        rw [if_neg]
        intro hcon
        rw [h p (by simp)] at hcon
        simp at hcon
      rw [hstep]
      exact ih s r (fun p2 hp2 => h p2 (by simp [hp2]))

theorem depFold_success : ∀ (env : Env) (items : List (Str × Bool)) (s : PMState)
    (r : SingleOperationResult),
    (∀ it ∈ items, it.2 = true) →
    (items.foldl (depStep env) (s, r)).1 = s ∧
    (items.foldl (depStep env) (s, r)).2.failedList = r.failedList := by
  intro env items
  induction items with
  | nil => intro s r _; exact ⟨rfl, rfl⟩
  | cons it rest ih =>
      intro s r h
      rw [List.foldl_cons]
      have h2 := h it (by simp)
      rw [depStep]
      cases hl : lookupPlugin s it.1 with
      | none => exact ih s r (fun x hx => h x (by simp [hx]))
      | some plugin =>
          simp only [h2, reduceIte]
          have hrec : (SingleOperationResult.record r it.1 true).failedList = r.failedList := by
            rw [SingleOperationResult.record]
            simp [SingleOperationResult.succeed]
          obtain ⟨ha, hb⟩ := ih s (r.record it.1 true) (fun x hx => h x (by simp [hx]))
          exact ⟨ha, by rw [hb, hrec]⟩

theorem loadEventFold_nilNewly : ∀ (l : List Str) (st : PMState),
    l.foldl (loadEventStep []) st = st := by
  intro l
  induction l with
  | nil => intro st; rfl
  | cons pid rest ih =>
      intro st
      rw [List.foldl_cons, loadEventStep]
      rw [if_neg (by simp)]
      exact ih st

/-- Claim C7: running refresh_changed_plugins in a steady state (consistent
maps, all plugins READY and dependency-satisfied, registry in sync) when no
plugin file has changed, none was added and none was removed is a no-op:
the load, unload and reload sub-results are all empty, no PLUGIN_LOAD or
PLUGIN_UNLOAD event is dispatched, the plugin set and the aggregate registry
content are unchanged. -/
theorem claim_C7 : ∀ (env : Env) (s : PMState),
    WF s →
    s.registry = s.plugins.map (fun p => p.pid) →
    (∀ p ∈ s.plugins, depOk env s.plugins p.pid = true) →
    (∀ f ∈ env.files, containsPluginFile s f = true) →
    (∀ p ∈ s.plugins, (env.beh p.filePath).fileExists = true) →
    (∀ p ∈ s.plugins, (env.beh p.filePath).fileChanged = false) →
    ∃ s2, refresh_changed_plugins env s = some s2 ∧
      s2.plugins = s.plugins ∧
      s2.eventLog = s.eventLog ∧
      s2.registry = s.registry ∧
      s2.lastOperationResult.loadR = .empty ∧
      s2.lastOperationResult.unloadR = .empty ∧
      s2.lastOperationResult.reloadR = .empty := by
  intro env s hwf hreg hdep hfiles hexists hchanged
  rw [refresh_changed_plugins, refreshPlugins]
  have hphase1 : collect_and_process_new_plugins env (beginOp s) (fun _ => true) none =
      (beginOp s, .empty) := by
    rw [collect_and_process_new_plugins]
    exact collectNew_noop env _ env.files (beginOp s) .empty hfiles
  have hphase2 : collect_and_remove_plugins env (beginOp s)
      (fun p => decide ((env.beh p.filePath).fileExists = false)) none =
      (beginOp s, .empty) := by
    rw [collect_and_remove_plugins]
    refine removeFold_noop env _ (beginOp s).plugins (beginOp s) .empty ?_
    intro p hp
    have := hexists p hp
    simp [this]
  have hphase3 : reload_ready_plugins env (beginOp s)
      (fun p => (env.beh p.filePath).fileChanged) none = (beginOp s, .empty) := by
    rw [reload_ready_plugins]
    refine reloadFold_noop env _ (beginOp s).plugins (beginOp s) .empty ?_
    intro p hp
    exact hchanged p hp
  simp only [hphase1, hphase2, hphase3]
  rcases hc : check_plugin_dependencies env (beginOp s) with ⟨s1, depR⟩
  have hc0 := hc
  have hfold := depFold_success env
      ((beginOp s).plugins.map (fun p => (p.pid, depOk env (beginOp s).plugins p.pid)))
      (beginOp s) .empty
      (by
        intro it hit
        obtain ⟨p, hp, hpe⟩ := List.mem_map.mp hit
        rw [← hpe]
        exact hdep p hp)
  rw [check_plugin_dependencies] at hc
  rw [hc] at hfold
  obtain ⟨hs1, hfailed⟩ := hfold
  simp only at hs1 hfailed
  subst hs1
  rw [post_plugin_process]
  simp only [hc0]
  simp only [SingleOperationResult.empty, List.nil_append, List.append_nil, List.foldl_nil]
  rw [loadEventFold_nilNewly]
  rw [hfailed]
  simp only [SingleOperationResult.empty, List.nil_append, List.foldl_nil]
  rw [if_pos]
  · refine ⟨_, rfl, ?_, ?_, ?_, ?_, ?_, ?_⟩ <;>
      simp [update_registry, beginOp, hreg]
  · rw [List.all_eq_true]
    intro p hp
    have := hwf.2 p hp
    simp [this]

theorem claim_C7_witness :
    ∃ s2, refresh_changed_plugins c7env c5state = some s2 ∧
      s2.plugins = c5state.plugins ∧
      s2.eventLog = c5state.eventLog ∧
      s2.registry = c5state.registry ∧
      s2.lastOperationResult.loadR = .empty ∧
      s2.lastOperationResult.unloadR = .empty ∧
      s2.lastOperationResult.reloadR = .empty :=
  claim_C7 c7env c5state (by decide) (by decide) (by decide) (by decide)
    (by decide) (by decide)

theorem pids_append (a b : List Plugin) : pids (a ++ b) = pids a ++ pids b := by
  rw [pids, pids, pids, List.map_append]

/-- Facts about __unload_plugin when the plugin id is not already in the
eviction pool: the map loses the id, the pool gains the plugin in state
UNLOADING, and pid uniqueness across map plus pool is preserved. -/
theorem unloadObj_facts (env : Env) (s : PMState) (p : Plugin)
    (hA : (pids (s.plugins ++ s.evicted)).Nodup)
    (hpev : p.pid ∉ pids s.evicted) :
    (unloadPluginObj env s p).1.plugins = s.plugins.filter (fun q => q.pid ≠ p.pid) ∧
    (unloadPluginObj env s p).1.evicted =
      s.evicted ++ [{ p with state := .unloading }] ∧
    (pids ((unloadPluginObj env s p).1.plugins ++
      (unloadPluginObj env s p).1.evicted)).Nodup ∧
    (unloadPluginObj env s p).1.eventLog = s.eventLog := by
  refine ⟨rfl, rfl, ?_, rfl⟩
  rw [pids_append] at hA ⊢
  obtain ⟨h1, h2, hdisj⟩ := List.nodup_append.mp hA
  rw [List.nodup_append]
  refine ⟨?_, ?_, ?_⟩
  · show (pids (s.plugins.filter (fun q => q.pid ≠ p.pid))).Nodup
    have h1x := h1
    rw [pids] at h1x
    rw [pids]
    exact ((List.filter_sublist s.plugins).map (fun q => q.pid)).nodup h1x
  · show (pids (s.evicted ++ [{ p with state := .unloading }])).Nodup
    rw [pids_append]
    rw [List.nodup_append]
    refine ⟨h2, by simp [pids], ?_⟩
    intro a ha
    simp only [pids, List.map_cons, List.map_nil, List.mem_singleton]
    intro heq
    subst heq
    exact hpev ha
  · intro a ha
    rw [pids] at ha
    obtain ⟨q, hqmem, hqe⟩ := List.mem_map.mp ha
    obtain ⟨hqpl, hqne⟩ := List.mem_filter.mp hqmem
    show a ∉ pids (s.evicted ++ [{ p with state := .unloading }])
    rw [pids_append]
    rw [List.mem_append]
    rintro (hina | hinb)
    · exact hdisj (by rw [pids]; exact List.mem_map.mpr ⟨q, hqpl, hqe⟩) hina
    · simp only [pids, List.map_cons, List.map_nil, List.mem_singleton] at hinb
      rw [← hqe] at hinb
      simp at hqne
      exact hqne hinb

/-- Facts about the new-plugin collection loop run with an empty eviction
pool: the pool stays empty, events are not dispatched, pid uniqueness is
preserved, the success list only grows, and every plugin of the final map
either was already there or is a newly added plugin in state LOADED whose id
was recorded as a success. -/
theorem collectNew_facts : ∀ (env : Env) (filter : Str → Bool) (files : List Str)
    (s : PMState) (r : SingleOperationResult),
    (pids s.plugins).Nodup →
    s.evicted = [] →
    ((files.foldl (loadStep env filter) (s, r)).1.evicted = [] ∧
     (files.foldl (loadStep env filter) (s, r)).1.eventLog = s.eventLog ∧
     (pids (files.foldl (loadStep env filter) (s, r)).1.plugins).Nodup ∧
     (∃ ext, (files.foldl (loadStep env filter) (s, r)).2.successList =
        r.successList ++ ext) ∧
     (∀ q ∈ (files.foldl (loadStep env filter) (s, r)).1.plugins,
        q ∈ s.plugins ∨ (q.state = .loaded ∧
          q.pid ∈ (files.foldl (loadStep env filter) (s, r)).2.successList))) := by
  intro env filter files
  induction files with
  | nil =>
      intro s r h1 h2
      exact ⟨h2, rfl, h1, ⟨[], by simp⟩, fun q hq => Or.inl hq⟩
  | cons f rest ih =>
      intro s r h1 h2
      rw [List.foldl_cons]
      by_cases hcond : containsPluginFile s f = false ∧ filter f
      · by_cases hload : (env.beh f).loadOk = false
        · have hstep : loadStep env filter (s, r) f = (s, r.fail f) := by
            rw [loadStep, if_pos hcond, loadPluginFile, if_pos hload]
          rw [hstep]
          obtain ⟨c1, c2, c3, ⟨ext, hext⟩, c5⟩ := ih s (r.fail f) h1 h2
          refine ⟨c1, c2, c3, ⟨ext, ?_⟩, c5⟩
          rw [hext]
          rfl
        · cases hfind : s.plugins.find? (fun q => q.pid = (env.beh f).metaId) with
          | some q0 =>
              have hstep : loadStep env filter (s, r) f =
                  ({ s with discarded := s.discarded ++
                    [⟨(env.beh f).metaId, f, .unloaded⟩] }, r.fail f) := by
                rw [loadStep, if_pos hcond, loadPluginFile, if_neg (by simp [hload])]
                simp only [hfind]
              rw [hstep]
              obtain ⟨c1, c2, c3, ⟨ext, hext⟩, c5⟩ :=
                ih ({ s with discarded := s.discarded ++
                  [⟨(env.beh f).metaId, f, .unloaded⟩] }) (r.fail f) h1 h2
              refine ⟨c1, c2, c3, ⟨ext, ?_⟩, c5⟩
              rw [hext]
              rfl
          | none =>
              have hstep : loadStep env filter (s, r) f =
                  (addPlugin s ⟨(env.beh f).metaId, f, .loaded⟩,
                   r.succeed (env.beh f).metaId) := by
                rw [loadStep, if_pos hcond, loadPluginFile, if_neg (by simp [hload])]
                simp only [hfind]
              rw [hstep]
              have hnotin : (env.beh f).metaId ∉ pids s.plugins := by
                intro hmem
                rw [pids] at hmem
                obtain ⟨x, hx, hxe⟩ := List.mem_map.mp hmem
                exact absurd hxe (by
                  have := List.find?_eq_none.mp hfind x hx
                  simpa using this)
              have h1x : (pids (addPlugin s ⟨(env.beh f).metaId, f, .loaded⟩).plugins).Nodup := by
                show (pids (s.plugins ++ [⟨(env.beh f).metaId, f, .loaded⟩])).Nodup
                rw [pids_append]
                rw [List.nodup_append]
                refine ⟨h1, by simp [pids], ?_⟩
                intro a ha
                simp only [pids, List.map_cons, List.map_nil, List.mem_singleton]
                intro heq
                subst heq
                exact hnotin ha
              obtain ⟨c1, c2, c3, ⟨ext, hext⟩, c5⟩ :=
                ih (addPlugin s ⟨(env.beh f).metaId, f, .loaded⟩)
                  (r.succeed (env.beh f).metaId) h1x h2
              refine ⟨c1, c2, c3, ⟨[(env.beh f).metaId] ++ ext, ?_⟩, ?_⟩
              · rw [hext]
                show r.successList ++ [(env.beh f).metaId] ++ ext = _
                rw [List.append_assoc]
              · intro q hq
                rcases c5 q hq with hql | hqr
                · rcases List.mem_append.mp hql with hqs | hqnew
                  · exact Or.inl hqs
                  · rw [List.mem_singleton] at hqnew
                    subst hqnew
                    refine Or.inr ⟨rfl, ?_⟩
                    rw [hext]
                    rw [List.mem_append]
                    exact Or.inl (by
                      show (env.beh f).metaId ∈ r.successList ++ [(env.beh f).metaId]
                      rw [List.mem_append]
                      exact Or.inr (by simp))
                · exact Or.inr hqr
      · have hstep : loadStep env filter (s, r) f = (s, r) := by
          rw [loadStep, if_neg hcond]
        rw [hstep]
        exact ih s r h1 h2


theorem perm_of_multiset {α : Type} (l1 l2 : List α)
    (h : (l1 : Multiset α) = (l2 : Multiset α)) : l1.Perm l2 :=
  Multiset.coe_eq_coe.mp h

theorem record_perm (r : SingleOperationResult) (pid : Str) (b : Bool) :
    ((r.record pid b).successList ++ (r.record pid b).failedList).Perm
      ((r.successList ++ r.failedList) ++ [pid]) := by
  cases b with
  | true =>
      show ((r.successList ++ [pid]) ++ r.failedList).Perm _
      rw [List.append_assoc, List.append_assoc]
      exact List.Perm.append_left r.successList List.perm_append_comm
  | false =>
      show (r.successList ++ (r.failedList ++ [pid])).Perm _
      rw [List.append_assoc]

/-- Facts about the plugin-removal loop over a snapshot: the eviction pool
gains exactly the removed plugins in state UNLOADING, the recorded ids
(successes plus failures) are the ids of those plugins up to order, pid
uniqueness is preserved and the surviving plugins are original ones. -/
theorem collectRemove_facts : ∀ (env : Env) (filter : Plugin → Bool)
    (ps : List Plugin) (s : PMState) (r : SingleOperationResult),
    (pids (s.plugins ++ s.evicted)).Nodup →
    (∀ p ∈ ps, p ∈ s.plugins) →
    (pids ps).Nodup →
    ∃ newEv,
      (ps.foldl (removeStep env filter) (s, r)).1.evicted = s.evicted ++ newEv ∧
      (∀ p ∈ newEv, p.state = .unloading) ∧
      ((ps.foldl (removeStep env filter) (s, r)).2.successList ++
        (ps.foldl (removeStep env filter) (s, r)).2.failedList).Perm
        ((r.successList ++ r.failedList) ++ pids newEv) ∧
      (pids ((ps.foldl (removeStep env filter) (s, r)).1.plugins ++
        (ps.foldl (removeStep env filter) (s, r)).1.evicted)).Nodup ∧
      (∀ q ∈ (ps.foldl (removeStep env filter) (s, r)).1.plugins, q ∈ s.plugins) ∧
      (ps.foldl (removeStep env filter) (s, r)).1.eventLog = s.eventLog := by
  intro env filter ps
  induction ps with
  | nil =>
      intro s r hA _ _
      refine ⟨[], by simp, by simp, ?_, hA, fun q hq => hq, rfl⟩
      simp only [pids, List.map_nil, List.append_nil]
      exact List.Perm.refl _
  | cons p rest ih =>
      intro s r hA hsub hnd
      rw [List.foldl_cons]
      have hndtail : (pids rest).Nodup := by
        rw [pids] at hnd
        simp only [List.map_cons] at hnd
        exact (List.nodup_cons.mp hnd).2
      by_cases hf : filter p
      · have hstep : removeStep env filter (s, r) p =
            ((unloadPluginObj env s p).1, r.record p.pid (unloadPluginObj env s p).2) := by
          rw [removeStep, if_pos hf]
        rw [hstep]
        have hpmem : p ∈ s.plugins := hsub p (List.mem_cons_self p rest)
        have hpinpids : p.pid ∈ pids s.plugins := by
          rw [pids]; exact List.mem_map.mpr ⟨p, hpmem, rfl⟩
        have hpev : p.pid ∉ pids s.evicted := by
          rw [pids_append] at hA
          obtain ⟨h1, h2, hdisj⟩ := List.nodup_append.mp hA
          exact fun hmem => hdisj hpinpids hmem
        obtain ⟨hplug, hev, hnd2, hlog⟩ := unloadObj_facts env s p hA hpev
        have hnotint : p.pid ∉ pids rest := by
          rw [pids] at hnd
          simp only [List.map_cons] at hnd
          exact (List.nodup_cons.mp hnd).1
        have hsub2 : ∀ q ∈ rest, q ∈ (unloadPluginObj env s p).1.plugins := by
          intro q hq
          rw [hplug, List.mem_filter]
          refine ⟨hsub q (List.mem_cons_of_mem p hq), ?_⟩
          have hqmem : q.pid ∈ pids rest := by
            rw [pids]; exact List.mem_map.mpr ⟨q, hq, rfl⟩
          have hne : q.pid ≠ p.pid := by
            intro heq
            rw [heq] at hqmem
            exact hnotint hqmem
          simp [hne]
        obtain ⟨newEv2, d1, d2, d3, d4, d5, d6⟩ :=
          ih (unloadPluginObj env s p).1 (r.record p.pid (unloadPluginObj env s p).2)
            hnd2 hsub2 hndtail
        refine ⟨{ p with state := .unloading } :: newEv2, ?_, ?_, ?_, d4, ?_, ?_⟩
        · rw [d1, hev]
          simp
        · intro x hx
          rcases List.mem_cons.mp hx with hx1 | hx2
          · rw [hx1]
          · exact d2 x hx2
        · refine d3.trans ?_
          have hpid : pids ({ p with state := PluginState.unloading } :: newEv2) =
              [p.pid] ++ pids newEv2 := by
            rw [pids, pids, List.map_cons, List.singleton_append]
          rw [hpid]
          refine ((record_perm r p.pid _).append_right (pids newEv2)).trans ?_
          simp only [List.append_assoc]
          exact List.Perm.refl _
        · intro q hq
          have hq2 := d5 q hq
          rw [hplug] at hq2
          exact (List.mem_filter.mp hq2).1
        · rw [d6]
          exact hlog
      · have hstep : removeStep env filter (s, r) p = (s, r) := by
          rw [removeStep, if_neg hf]
        rw [hstep]
        exact ih s r hA (fun q hq => hsub q (List.mem_cons_of_mem p hq)) hndtail

theorem setPluginState_facts (s : PMState) (pid : Str) (st : PluginState) :
    pids (setPluginState s pid st).plugins = pids s.plugins ∧
    (setPluginState s pid st).evicted = s.evicted ∧
    (setPluginState s pid st).eventLog = s.eventLog ∧
    (∀ q ∈ (setPluginState s pid st).plugins,
      (q ∈ s.plugins ∧ q.pid ≠ pid) ∨ (q.state = st ∧ q.pid = pid)) ∧
    (∀ q ∈ s.plugins, q.pid ≠ pid → q ∈ (setPluginState s pid st).plugins) := by
  refine ⟨?_, rfl, rfl, ?_, ?_⟩
  · show pids (s.plugins.map (fun q => if q.pid = pid then { q with state := st } else q)) =
      pids s.plugins
    rw [pids, pids, List.map_map]
    refine List.map_congr_left ?_
    intro q _
    by_cases h : q.pid = pid
    · simp [h]
    · simp [h]
  · intro q hq
    obtain ⟨q0, hq0, hqe⟩ := List.mem_map.mp hq
    by_cases h : q0.pid = pid
    · rw [if_pos h] at hqe
      right
      rw [← hqe]
      exact ⟨rfl, h⟩
    · rw [if_neg h] at hqe
      left
      rw [← hqe]
      exact ⟨hq0, h⟩
  · intro q hq hne
    show q ∈ s.plugins.map (fun q => if q.pid = pid then { q with state := st } else q)
    exact List.mem_map.mpr ⟨q, hq, by rw [if_neg hne]⟩

/-- Facts about the reload loop over a snapshot: failures move to the
eviction pool in state UNLOADING with their ids recorded as failures in
order, successes are recorded and left in the map in state LOADED, other
plugins are untouched, and pid uniqueness is preserved. -/
theorem reload_facts : ∀ (env : Env) (filter : Plugin → Bool)
    (ps : List Plugin) (s : PMState) (r : SingleOperationResult),
    (pids (s.plugins ++ s.evicted)).Nodup →
    (∀ p ∈ ps, p ∈ s.plugins) →
    (pids ps).Nodup →
    ∃ newEv,
      (ps.foldl (reloadStep env filter) (s, r)).1.evicted = s.evicted ++ newEv ∧
      (∀ p ∈ newEv, p.state = .unloading) ∧
      (ps.foldl (reloadStep env filter) (s, r)).2.failedList =
        r.failedList ++ pids newEv ∧
      (pids ((ps.foldl (reloadStep env filter) (s, r)).1.plugins ++
        (ps.foldl (reloadStep env filter) (s, r)).1.evicted)).Nodup ∧
      (ps.foldl (reloadStep env filter) (s, r)).1.eventLog = s.eventLog ∧
      (∃ ext, (ps.foldl (reloadStep env filter) (s, r)).2.successList =
        r.successList ++ ext) ∧
      (∀ q ∈ (ps.foldl (reloadStep env filter) (s, r)).1.plugins,
        q ∈ s.plugins ∨ (q.state = .loaded ∧
          q.pid ∈ (ps.foldl (reloadStep env filter) (s, r)).2.successList)) := by
  intro env filter ps
  induction ps with
  | nil =>
      intro s r hA _ _
      exact ⟨[], by simp, by simp, by simp [pids], hA, rfl, ⟨[], by simp⟩,
        fun q hq => Or.inl hq⟩
  | cons p rest ih =>
      intro s r hA hsub hnd
      rw [List.foldl_cons]
      have hndtail : (pids rest).Nodup := by
        rw [pids] at hnd
        simp only [List.map_cons] at hnd
        exact (List.nodup_cons.mp hnd).2
      have hnotint : p.pid ∉ pids rest := by
        rw [pids] at hnd
        simp only [List.map_cons] at hnd
        exact (List.nodup_cons.mp hnd).1
      by_cases hf : p.state = .ready ∧ filter p
      · have hstep : reloadStep env filter (s, r) p =
            ((reloadPluginObj env s p).1, r.record p.pid (reloadPluginObj env s p).2) := by
          rw [reloadStep, if_pos hf]
        rw [hstep]
        have hpmem : p ∈ s.plugins := hsub p (List.mem_cons_self p rest)
        by_cases hok : (env.beh p.filePath).reloadOk
        · have hro : reloadPluginObj env s p = (setPluginState s p.pid .loaded, true) := by
            rw [reloadPluginObj, if_pos hok]
          rw [hro]
          obtain ⟨e1, e2, e3, e4, e5⟩ := setPluginState_facts s p.pid .loaded
          have hA2 : (pids ((setPluginState s p.pid .loaded).plugins ++
              (setPluginState s p.pid .loaded).evicted)).Nodup := by
            rw [pids_append, e1, e2, ← pids_append]
            exact hA
          have hsub2 : ∀ q ∈ rest, q ∈ (setPluginState s p.pid .loaded).plugins := by
            intro q hq
            refine e5 q (hsub q (List.mem_cons_of_mem p hq)) ?_
            intro heq
            have : q.pid ∈ pids rest := by
              rw [pids]; exact List.mem_map.mpr ⟨q, hq, rfl⟩
            rw [heq] at this
            exact hnotint this
          obtain ⟨newEv2, d1, d2, d3, d4, d5, ⟨ext2, d6⟩, d7⟩ :=
            ih (setPluginState s p.pid .loaded) (r.record p.pid true) hA2 hsub2 hndtail
          refine ⟨newEv2, ?_, d2, ?_, d4, ?_, ⟨p.pid :: ext2, ?_⟩, ?_⟩
          · rw [d1, e2]
          · rw [d3]
            show _ = (r.record p.pid true).failedList ++ pids newEv2
            rfl
          · rw [d5, e3]
          · rw [d6]
            show (r.record p.pid true).successList ++ ext2 = _
            show r.successList ++ [p.pid] ++ ext2 = _
            rw [List.append_assoc, List.singleton_append]
          · intro q hq
            rcases d7 q hq with hq1 | hq2
            · rcases (e4 q hq1).imp id id with hq3 | hq4
              · exact Or.inl hq3.1
              · refine Or.inr ⟨hq4.1, ?_⟩
                rw [d6, hq4.2]
                show p.pid ∈ r.successList ++ [p.pid] ++ ext2
                simp
            · exact Or.inr hq2
        · have hro : reloadPluginObj env s p = ((unloadPluginObj env s p).1, false) := by
            rw [reloadPluginObj, if_neg hok]
          rw [hro]
          have hpinpids : p.pid ∈ pids s.plugins := by
            rw [pids]; exact List.mem_map.mpr ⟨p, hpmem, rfl⟩
          have hpev : p.pid ∉ pids s.evicted := by
            rw [pids_append] at hA
            obtain ⟨h1, h2, hdisj⟩ := List.nodup_append.mp hA
            exact fun hmem => hdisj hpinpids hmem
          obtain ⟨hplug, hev, hnd2, hlog⟩ := unloadObj_facts env s p hA hpev
          have hsub2 : ∀ q ∈ rest, q ∈ (unloadPluginObj env s p).1.plugins := by
            intro q hq
            rw [hplug, List.mem_filter]
            refine ⟨hsub q (List.mem_cons_of_mem p hq), ?_⟩
            have hqmem : q.pid ∈ pids rest := by
              rw [pids]; exact List.mem_map.mpr ⟨q, hq, rfl⟩
            have hne : q.pid ≠ p.pid := by
              intro heq
              rw [heq] at hqmem
              exact hnotint hqmem
            simp [hne]
          obtain ⟨newEv2, d1, d2, d3, d4, d5, ⟨ext2, d6⟩, d7⟩ :=
            ih (unloadPluginObj env s p).1 (r.record p.pid false) hnd2 hsub2 hndtail
          refine ⟨{ p with state := .unloading } :: newEv2, ?_, ?_, ?_, d4, ?_,
            ⟨ext2, ?_⟩, ?_⟩
          · rw [d1, hev]
            simp
          · intro x hx
            rcases List.mem_cons.mp hx with hx1 | hx2
            · rw [hx1]
            · exact d2 x hx2
          · rw [d3]
            show (r.record p.pid false).failedList ++ pids newEv2 = _
            show r.failedList ++ [p.pid] ++ pids newEv2 = _
            have hpid2 : pids ({ p with state := PluginState.unloading } :: newEv2) =
                [p.pid] ++ pids newEv2 := by
              rw [pids, pids, List.map_cons, List.singleton_append]
            rw [hpid2, List.append_assoc]
          · rw [d5]
            exact hlog
          · rw [d6]
            rfl
          · intro q hq
            rcases d7 q hq with hq1 | hq2
            · rw [hplug] at hq1
              exact Or.inl (List.mem_filter.mp hq1).1
            · exact Or.inr hq2
      · have hstep : reloadStep env filter (s, r) p = (s, r) := by
          rw [reloadStep, if_neg hf]
        rw [hstep]
        exact ih s r hA (fun q hq => hsub q (List.mem_cons_of_mem p hq)) hndtail

/-- Facts about the dependency-check loop: failed items move their plugin to
the eviction pool in state UNLOADING with ids recorded as failures in order,
successes are recorded, pid uniqueness is preserved, and every surviving
plugin is an untouched original whose id was either never an item or was
recorded as a success. -/
theorem depFold_facts : ∀ (env : Env) (items : List (Str × Bool))
    (st : PMState) (r : SingleOperationResult),
    (pids (st.plugins ++ st.evicted)).Nodup →
    ∃ newEv ext,
      (items.foldl (depStep env) (st, r)).1.evicted = st.evicted ++ newEv ∧
      (∀ p ∈ newEv, p.state = .unloading) ∧
      (items.foldl (depStep env) (st, r)).2.failedList =
        r.failedList ++ pids newEv ∧
      (items.foldl (depStep env) (st, r)).2.successList = r.successList ++ ext ∧
      (pids ((items.foldl (depStep env) (st, r)).1.plugins ++
        (items.foldl (depStep env) (st, r)).1.evicted)).Nodup ∧
      (items.foldl (depStep env) (st, r)).1.eventLog = st.eventLog ∧
      (∀ q ∈ (items.foldl (depStep env) (st, r)).1.plugins, q ∈ st.plugins ∧
        (q.pid ∉ items.map Prod.fst ∨
          q.pid ∈ (items.foldl (depStep env) (st, r)).2.successList)) := by
  intro env items
  induction items with
  | nil =>
      intro st r hA
      exact ⟨[], [], by simp, by simp, by simp [pids], by simp, hA, rfl,
        fun q hq => ⟨hq, Or.inl (by simp)⟩⟩
  | cons item rest ih =>
      intro st r hA
      rw [List.foldl_cons]
      cases hlk : lookupPlugin st item.1 with
      | none =>
          have hstep : depStep env (st, r) item = (st, r) := by
            rw [depStep]
            simp only [hlk]
          rw [hstep]
          obtain ⟨newEv, ext, d1, d2, d3, d4, d5, d6, d7⟩ := ih st r hA
          refine ⟨newEv, ext, d1, d2, d3, d4, d5, d6, ?_⟩
          intro q hq
          obtain ⟨hq1, hq2⟩ := d7 q hq
          refine ⟨hq1, ?_⟩
          have hne : q.pid ≠ item.1 := by
            intro heq
            rw [lookupPlugin] at hlk
            have := List.find?_eq_none.mp hlk q hq1
            simp [heq] at this
          rcases hq2 with hq3 | hq4
          · exact Or.inl (by simp [List.mem_cons, hne, hq3])
          · exact Or.inr hq4
      | some plugin =>
          have hpl1 : plugin.pid = item.1 := by
            rw [lookupPlugin] at hlk
            have := List.find?_some hlk
            exact of_decide_eq_true this
          have hplmem : plugin ∈ st.plugins := by
            rw [lookupPlugin] at hlk
            exact List.mem_of_find?_eq_some hlk
          cases hit : item.2 with
          | true =>
              have hstep : depStep env (st, r) item = (st, r.record item.1 true) := by
                rw [depStep]
                simp only [hlk, hit, reduceIte]
              rw [hstep]
              obtain ⟨newEv, ext, d1, d2, d3, d4, d5, d6, d7⟩ :=
                ih st (r.record item.1 true) hA
              refine ⟨newEv, item.1 :: ext, d1, d2, ?_, ?_, d5, d6, ?_⟩
              · rw [d3]
                rfl
              · rw [d4]
                show r.successList ++ [item.1] ++ ext = _
                rw [List.append_assoc, List.singleton_append]
              · intro q hq
                obtain ⟨hq1, hq2⟩ := d7 q hq
                refine ⟨hq1, ?_⟩
                by_cases hne : q.pid = item.1
                · refine Or.inr ?_
                  rw [d4, hne]
                  show item.1 ∈ r.successList ++ [item.1] ++ ext
                  simp
                · rcases hq2 with hq3 | hq4
                  · exact Or.inl (by simp [List.mem_cons, hne, hq3])
                  · exact Or.inr hq4
          | false =>
              have hstep : depStep env (st, r) item =
                  ((unloadPluginObj env st plugin).1, r.record item.1 false) := by
                rw [depStep]
                simp only [hlk, hit, Bool.false_eq_true, reduceIte]
              rw [hstep]
              have hpinpids : plugin.pid ∈ pids st.plugins := by
                rw [pids]; exact List.mem_map.mpr ⟨plugin, hplmem, rfl⟩
              have hpev : plugin.pid ∉ pids st.evicted := by
                rw [pids_append] at hA
                obtain ⟨h1, h2, hdisj⟩ := List.nodup_append.mp hA
                exact fun hmem => hdisj hpinpids hmem
              obtain ⟨hplug, hev, hnd2, hlog⟩ := unloadObj_facts env st plugin hA hpev
              obtain ⟨newEv, ext, d1, d2, d3, d4, d5, d6, d7⟩ :=
                ih (unloadPluginObj env st plugin).1 (r.record item.1 false) hnd2
              refine ⟨{ plugin with state := .unloading } :: newEv, ext, ?_, ?_, ?_,
                ?_, d5, ?_, ?_⟩
              · rw [d1, hev]
                simp
              · intro x hx
                rcases List.mem_cons.mp hx with hx1 | hx2
                · rw [hx1]
                · exact d2 x hx2
              · rw [d3]
                show (r.record item.1 false).failedList ++ pids newEv = _
                show r.failedList ++ [item.1] ++ pids newEv = _
                have hpid2 : pids ({ plugin with state := PluginState.unloading } :: newEv) =
                    [plugin.pid] ++ pids newEv := by
                  rw [pids, pids, List.map_cons, List.singleton_append]
                rw [hpid2, hpl1, List.append_assoc]
              · rw [d4]
                rfl
              · rw [d6]
                exact hlog
              · intro q hq
                obtain ⟨hq1, hq2⟩ := d7 q hq
                rw [hplug] at hq1
                obtain ⟨hq1a, hq1b⟩ := List.mem_filter.mp hq1
                have hne : q.pid ≠ item.1 := by
                  rw [← hpl1]
                  intro heq
                  simp [heq] at hq1b
                refine ⟨hq1a, ?_⟩
                rcases hq2 with hq3 | hq4
                · exact Or.inl (by simp [List.mem_cons, hne, hq3])
                · exact Or.inr hq4

/-- The ready-transition loop is a pointwise map over the plugin list:
a plugin whose id is both in the newly-loaded list and the dependency
success list is set READY, any other plugin is untouched. -/
theorem readyFold_map : ∀ (d l : List Str) (st : PMState),
    (l.foldl (readyStep d) st).plugins =
      st.plugins.map (fun q =>
        if q.pid ∈ l ∧ q.pid ∈ d then { q with state := PluginState.ready } else q) ∧
    (l.foldl (readyStep d) st).evicted = st.evicted ∧
    (l.foldl (readyStep d) st).eventLog = st.eventLog := by
  intro d l
  induction l with
  | nil =>
      intro st
      refine ⟨?_, rfl, rfl⟩
      simp
  | cons a l ih =>
      intro st
      rw [List.foldl_cons]
      by_cases ha : a ∈ d
      · have hstep : readyStep d st a = setPluginState st a .ready := by
          rw [readyStep, if_pos ha]
        rw [hstep]
        obtain ⟨e1, e2, e3⟩ := ih (setPluginState st a .ready)
        refine ⟨?_, e2, e3⟩
        rw [e1]
        show (st.plugins.map _).map _ = _
        rw [List.map_map]
        refine List.map_congr_left ?_
        intro q _
        show (fun q => if q.pid ∈ l ∧ q.pid ∈ d then { q with state := PluginState.ready } else q)
          (if q.pid = a then { q with state := PluginState.ready } else q) =
          (if q.pid ∈ a :: l ∧ q.pid ∈ d then { q with state := PluginState.ready } else q)
        by_cases h3 : q.pid = a
        · subst h3
          simp [ha]
        · by_cases h2 : q.pid ∈ l <;> by_cases h1 : q.pid ∈ d <;>
            simp_all [List.mem_cons]
      · have hstep : readyStep d st a = st := by
          rw [readyStep, if_neg ha]
        rw [hstep]
        obtain ⟨e1, e2, e3⟩ := ih st
        refine ⟨?_, e2, e3⟩
        rw [e1]
        refine List.map_congr_left ?_
        intro q _
        by_cases h3 : q.pid = a
        · simp [h3, ha]
        · simp [List.mem_cons, h3]

/-- The PLUGIN_LOAD event loop touches only the event log. -/
theorem loadEventFold_facts : ∀ (newly l : List Str) (st : PMState),
    (l.foldl (loadEventStep newly) st).plugins = st.plugins ∧
    (l.foldl (loadEventStep newly) st).evicted = st.evicted := by
  intro newly l
  induction l with
  | nil => intro st; exact ⟨rfl, rfl⟩
  | cons pid rest ih =>
      intro st
      rw [List.foldl_cons]
      by_cases h : pid ∈ newly
      · have hstep : loadEventStep newly st pid =
            { st with eventLog := st.eventLog ++ [(pid, .pluginLoad)] } := by
          rw [loadEventStep, if_pos h]
        rw [hstep]
        exact ih _
      · have hstep : loadEventStep newly st pid = st := by
          rw [loadEventStep, if_neg h]
        rw [hstep]
        exact ih st

theorem unloadPhaseStep_some (loadSucc : List Str) (st : PMState) (pid : Str)
    (q : Plugin)
    (hfind : st.evicted.find? (fun x => x.pid = pid) = some q)
    (hqst : q.state = .unloading) :
    ∃ st2, unloadPhaseStep loadSucc (some st) pid = some st2 ∧
      st2.plugins = st.plugins ∧
      st2.evicted = st.evicted.map (fun x =>
        if x.pid = pid then { x with state := .unloaded } else x) := by
  rw [unloadPhaseStep]
  simp only [hfind]
  rw [if_pos hqst]
  by_cases hls : pid ∈ loadSucc
  · rw [if_pos hls]
    exact ⟨_, rfl, rfl, rfl⟩
  · rw [if_neg hls]
    exact ⟨_, rfl, rfl, rfl⟩

/-- The unloaded-plugins loop of __post_plugin_process never hits its
assertion (returns some) when the processed ids are distinct and each
names a pooled plugin in state UNLOADING; the plugin map is untouched. -/
theorem unloadPhaseFold : ∀ (loadSucc l : List Str) (st : PMState),
    l.Nodup →
    (∀ pid ∈ l, ∃ p, p ∈ st.evicted ∧ p.pid = pid ∧ p.state = .unloading) →
    (pids st.evicted).Nodup →
    ∃ s5, l.foldl (unloadPhaseStep loadSucc) (some st) = some s5 ∧
      s5.plugins = st.plugins := by
  intro loadSucc l
  induction l with
  | nil => intro st _ _ _; exact ⟨st, rfl, rfl⟩
  | cons pid rest ih =>
      intro st hnd hex hpnd
      rw [List.foldl_cons]
      obtain ⟨p, hpmem, hppid, hpst⟩ := hex pid (List.mem_cons_self pid rest)
      cases hfind : st.evicted.find? (fun x => x.pid = pid) with
      | none =>
          exfalso
          have := List.find?_eq_none.mp hfind p hpmem
          simp [hppid] at this
      | some q =>
          have hq1 := List.find?_some hfind
          have hqpid : q.pid = pid := of_decide_eq_true hq1
          have hqmem : q ∈ st.evicted := List.mem_of_find?_eq_some hfind
          have hqp : q = p := by
            have hpnd0 : (st.evicted.map (fun x => x.pid)).Nodup := by
              rw [pids] at hpnd
              exact hpnd
            have hinj := List.inj_on_of_nodup_map hpnd0
            exact hinj hqmem hpmem (by rw [hqpid, hppid])
          have hqst : q.state = .unloading := by rw [hqp]; exact hpst
          obtain ⟨st2, hstep, hplug, hevmap⟩ :=
            unloadPhaseStep_some loadSucc st pid q hfind hqst
          rw [hstep]
          have hne : pid ∉ rest := (List.nodup_cons.mp hnd).1
          have hex2 : ∀ pid2 ∈ rest, ∃ p2, p2 ∈ st2.evicted ∧ p2.pid = pid2 ∧
              p2.state = .unloading := by
            intro pid2 hp2
            obtain ⟨p2, hp2mem, hp2pid, hp2st⟩ := hex pid2 (List.mem_cons_of_mem pid hp2)
            have hne2 : p2.pid ≠ pid := by
              rw [hp2pid]
              intro heq
              rw [heq] at hp2
              exact hne hp2
            refine ⟨p2, ?_, hp2pid, hp2st⟩
            rw [hevmap]
            exact List.mem_map.mpr ⟨p2, hp2mem, by rw [if_neg hne2]⟩
          have hpnd2 : (pids st2.evicted).Nodup := by
            rw [hevmap, pids, List.map_map]
            have : (st.evicted.map ((fun x => x.pid) ∘ (fun x =>
                if x.pid = pid then { x with state := PluginState.unloaded } else x))) =
                st.evicted.map (fun x => x.pid) := by
              refine List.map_congr_left ?_
              intro x _
              show (if x.pid = pid then ({ x with state := PluginState.unloaded } : Plugin)
                else x).pid = x.pid
              by_cases hx : x.pid = pid
              · rw [if_pos hx, hx]
              · rw [if_neg hx]
            rw [this]
            rw [pids] at hpnd
            exact hpnd
          obtain ⟨s5, h5, h5p⟩ := ih st2 (List.nodup_cons.mp hnd).2 hex2 hpnd2
          refine ⟨s5, h5, ?_⟩
          rw [h5p, hplug]

/-- __post_plugin_process, run on a state whose map plugins are READY or
newly LOADED (with their load recorded) and whose eviction pool matches the
recorded unload outcomes, hits no assertion and ends with every plugin in
the map READY. -/
theorem post_ready (env : Env) (s : PMState)
    (loadR unloadR reloadR : SingleOperationResult)
    (hnd : (pids (s.plugins ++ s.evicted)).Nodup)
    (hev : ∀ p ∈ s.evicted, p.state = .unloading)
    (hmap : ∀ p ∈ s.plugins, p.state = .ready ∨
      (p.state = .loaded ∧ p.pid ∈ loadR.successList ++ reloadR.successList))
    (hperm : (unloadR.successList ++ unloadR.failedList ++
      reloadR.failedList).Perm (pids s.evicted)) :
    ∃ s2, post_plugin_process env s loadR unloadR reloadR = some s2 ∧
      ∀ q ∈ s2.plugins, q.state = .ready := by
  rcases hc : check_plugin_dependencies env s with ⟨s1, depR⟩
  have hc0 := hc
  rw [check_plugin_dependencies] at hc
  obtain ⟨newEv, ext, d1, d2, d3, d4, d5, d6, d7⟩ := depFold_facts env
    (s.plugins.map (fun p => (p.pid, depOk env s.plugins p.pid))) s
    SingleOperationResult.empty hnd
  rw [hc] at d1 d3 d4 d5 d6 d7
  simp only at d1 d3 d4 d5 d6 d7
  simp only [SingleOperationResult.empty, List.nil_append] at d3 d4
  obtain ⟨r1, r2, r3⟩ := readyFold_map depR.successList
    (loadR.successList ++ reloadR.successList)
    { s1 with lastOperationResult := ⟨loadR, unloadR, reloadR, depR⟩ }
  obtain ⟨l1, l2⟩ := loadEventFold_facts (loadR.successList ++ reloadR.successList)
    depR.successList
    ((loadR.successList ++ reloadR.successList).foldl (readyStep depR.successList)
      { s1 with lastOperationResult := ⟨loadR, unloadR, reloadR, depR⟩ })
  have he4 : (depR.successList.foldl
      (loadEventStep (loadR.successList ++ reloadR.successList))
      ((loadR.successList ++ reloadR.successList).foldl (readyStep depR.successList)
        { s1 with lastOperationResult := ⟨loadR, unloadR, reloadR, depR⟩ })).evicted =
      s1.evicted := by
    rw [l2, r2]
  have hevnd : (pids s1.evicted).Nodup := by
    rw [pids_append] at d5
    exact (List.nodup_append.mp d5).2.1
  have hpermL : (unloadR.successList ++ unloadR.failedList ++ reloadR.failedList ++
      depR.failedList).Perm (pids s1.evicted) := by
    refine (List.Perm.append_right depR.failedList hperm).trans ?_
    rw [d3, d1, pids_append]
  have hndl : (unloadR.successList ++ unloadR.failedList ++ reloadR.failedList ++
      depR.failedList).Nodup := hpermL.nodup_iff.mpr hevnd
  have hex : ∀ pid ∈ unloadR.successList ++ unloadR.failedList ++
      reloadR.failedList ++ depR.failedList,
      ∃ p, p ∈ (depR.successList.foldl
        (loadEventStep (loadR.successList ++ reloadR.successList))
        ((loadR.successList ++ reloadR.successList).foldl (readyStep depR.successList)
          { s1 with lastOperationResult := ⟨loadR, unloadR, reloadR, depR⟩ })).evicted ∧
        p.pid = pid ∧ p.state = .unloading := by
    intro pid hpid
    have hmem : pid ∈ pids s1.evicted := hpermL.mem_iff.mp hpid
    rw [pids] at hmem
    obtain ⟨p, hpmem, hpe⟩ := List.mem_map.mp hmem
    have hpmem2 : p ∈ s.evicted ++ newEv := by rw [← d1]; exact hpmem
    have hst : p.state = .unloading := by
      rcases List.mem_append.mp hpmem2 with h | h
      · exact hev p h
      · exact d2 p h
    refine ⟨p, ?_, hpe, hst⟩
    rw [he4]
    exact hpmem
  have hpnd4 : (pids (depR.successList.foldl
      (loadEventStep (loadR.successList ++ reloadR.successList))
      ((loadR.successList ++ reloadR.successList).foldl (readyStep depR.successList)
        { s1 with lastOperationResult := ⟨loadR, unloadR, reloadR, depR⟩ })).evicted).Nodup := by
    rw [he4]
    exact hevnd
  obtain ⟨s5, hfold5, hs5p⟩ := unloadPhaseFold loadR.successList
    (unloadR.successList ++ unloadR.failedList ++ reloadR.failedList ++ depR.failedList)
    (depR.successList.foldl
      (loadEventStep (loadR.successList ++ reloadR.successList))
      ((loadR.successList ++ reloadR.successList).foldl (readyStep depR.successList)
        { s1 with lastOperationResult := ⟨loadR, unloadR, reloadR, depR⟩ }))
    hndl hex hpnd4
  have e2p : ({ s1 with
      lastOperationResult := (⟨loadR, unloadR, reloadR, depR⟩ : PluginOperationResult) } :
      PMState).plugins = s1.plugins := rfl
  rw [e2p] at r1
  have hall : ∀ q ∈ s5.plugins, q.state = .ready := by
    intro q hq
    rw [hs5p, l1, r1] at hq
    obtain ⟨q0, hq0, hqe⟩ := List.mem_map.mp hq
    obtain ⟨hq0s, hq0d⟩ := d7 q0 hq0
    have hin : q0.pid ∈ (s.plugins.map
        (fun p => (p.pid, depOk env s.plugins p.pid))).map Prod.fst := by
      rw [List.map_map]
      exact List.mem_map.mpr ⟨q0, hq0s, rfl⟩
    have hdsucc : q0.pid ∈ depR.successList := by
      rcases hq0d with h | h
      · exact absurd hin h
      · exact h
    rcases hmap q0 hq0s with hready | hloaded
    · by_cases hcnd : q0.pid ∈ loadR.successList ++ reloadR.successList ∧
          q0.pid ∈ depR.successList
      · rw [if_pos hcnd] at hqe
        rw [← hqe]
      · rw [if_neg hcnd] at hqe
        rw [← hqe]
        exact hready
    · rw [if_pos ⟨hloaded.2, hdsucc⟩] at hqe
      rw [← hqe]
  have hallb : s5.plugins.all (fun p => p.state = .ready) = true := by
    rw [List.all_eq_true]
    intro p hp
    simp [hall p hp]
  rw [post_plugin_process]
  simp only [hc0]
  rw [hfold5]
  simp only [hallb, reduceIte]
  exact ⟨update_registry s5, rfl, fun q hq => hall q hq⟩

/-- load_plugin on a well-formed state returns with every map plugin READY. -/
theorem load_op_ready (env : Env) (s : PMState) (fp : Str) (hwf : WF s) :
    ∃ s2, load_plugin env s fp = some s2 ∧ ∀ q ∈ s2.plugins, q.state = .ready := by
  rcases hcl0 : collect_and_process_new_plugins env (beginOp s) (fun _ => true)
    (some fp) with ⟨s1, loadR⟩
  have hcl2 : collect_and_process_new_plugins env (beginOp s) (fun _ => true)
      (some fp) = [fp].foldl (loadStep env (fun _ => true))
        (beginOp s, SingleOperationResult.empty) := by
    rw [collect_and_process_new_plugins]
  rw [hcl2] at hcl0
  obtain ⟨c1, c2, c3, c4, c5⟩ := collectNew_facts env (fun _ => true) [fp]
    (beginOp s) SingleOperationResult.empty hwf.1.1 rfl
  rw [hcl0] at c1 c2 c3 c4 c5
  simp only at c1 c2 c3 c4 c5
  have hnd : (pids (s1.plugins ++ s1.evicted)).Nodup := by
    rw [pids_append, c1]
    simp only [pids, List.map_nil, List.append_nil]
    rw [pids] at c3
    exact c3
  have hev : ∀ p ∈ s1.evicted, p.state = PluginState.unloading := by
    rw [c1]
    intro p hp
    exact absurd hp (List.not_mem_nil p)
  have hmap : ∀ p ∈ s1.plugins, p.state = .ready ∨
      (p.state = .loaded ∧
        p.pid ∈ loadR.successList ++ SingleOperationResult.empty.successList) := by
    intro p hp
    rcases c5 p hp with h | h
    · exact Or.inl (hwf.2 p h)
    · exact Or.inr ⟨h.1, List.mem_append_left _ h.2⟩
  have hperm : (SingleOperationResult.empty.successList ++
      SingleOperationResult.empty.failedList ++
      SingleOperationResult.empty.failedList).Perm (pids s1.evicted) := by
    rw [c1]
    simp [SingleOperationResult.empty, pids]
  obtain ⟨s2, hpost, hready⟩ := post_ready env s1 loadR
    SingleOperationResult.empty SingleOperationResult.empty hnd hev hmap hperm
  refine ⟨s2, ?_, hready⟩
  rw [load_plugin, hcl2, hcl0]
  exact hpost

/-- unload_plugin on a well-formed state returns with every map plugin
READY. -/
theorem unload_op_ready (env : Env) (s : PMState) (p : Plugin) (hwf : WF s)
    (hp : p ∈ s.plugins) :
    ∃ s2, unload_plugin env s p = some s2 ∧ ∀ q ∈ s2.plugins, q.state = .ready := by
  rcases hcr0 : collect_and_remove_plugins env (beginOp s) (fun _ => true)
    (some p) with ⟨s1, unloadR⟩
  have hcr2 : collect_and_remove_plugins env (beginOp s) (fun _ => true)
      (some p) = [p].foldl (removeStep env (fun _ => true))
        (beginOp s, SingleOperationResult.empty) := by
    rw [collect_and_remove_plugins]
  rw [hcr2] at hcr0
  have hA : (pids ((beginOp s).plugins ++ (beginOp s).evicted)).Nodup := by
    show (pids (s.plugins ++ [])).Nodup
    rw [List.append_nil]
    exact hwf.1.1
  obtain ⟨newEv, e1, e2, e3, e4, e5, e6⟩ := collectRemove_facts env (fun _ => true)
    [p] (beginOp s) SingleOperationResult.empty hA
    (by intro x hx; rw [List.mem_singleton.mp hx]; exact hp)
    (by simp [pids])
  rw [hcr0] at e1 e3 e4 e5 e6
  simp only at e1 e3 e4 e5 e6
  simp only [SingleOperationResult.empty, List.nil_append] at e3
  have hev : ∀ q ∈ s1.evicted, q.state = PluginState.unloading := by
    intro q hq
    rw [e1] at hq
    rcases List.mem_append.mp hq with h | h
    · exact absurd h (List.not_mem_nil q)
    · exact e2 q h
  have hmap : ∀ q ∈ s1.plugins, q.state = .ready ∨
      (q.state = .loaded ∧
        q.pid ∈ SingleOperationResult.empty.successList ++
          SingleOperationResult.empty.successList) := by
    intro q hq
    exact Or.inl (hwf.2 q (e5 q hq))
  have hperm : (unloadR.successList ++ unloadR.failedList ++
      SingleOperationResult.empty.failedList).Perm (pids s1.evicted) := by
    show ((unloadR.successList ++ unloadR.failedList) ++ ([] : List Str)).Perm _
    rw [List.append_nil, e1]
    show (unloadR.successList ++ unloadR.failedList).Perm (pids ([] ++ newEv))
    rw [List.nil_append]
    exact e3
  obtain ⟨s2, hpost, hready⟩ := post_ready env s1 SingleOperationResult.empty
    unloadR SingleOperationResult.empty e4 hev hmap hperm
  refine ⟨s2, ?_, hready⟩
  rw [unload_plugin, hcr2, hcr0]
  exact hpost

/-- reload_plugin on a well-formed state returns with every map plugin
READY. -/
theorem reload_op_ready (env : Env) (s : PMState) (p : Plugin) (hwf : WF s)
    (hp : p ∈ s.plugins) :
    ∃ s2, reload_plugin env s p = some s2 ∧ ∀ q ∈ s2.plugins, q.state = .ready := by
  rcases hcr0 : reload_ready_plugins env (beginOp s) (fun _ => true)
    (some p) with ⟨s1, reloadR⟩
  have hcr2 : reload_ready_plugins env (beginOp s) (fun _ => true)
      (some p) = [p].foldl (reloadStep env (fun _ => true))
        (beginOp s, SingleOperationResult.empty) := by
    rw [reload_ready_plugins]
  rw [hcr2] at hcr0
  have hA : (pids ((beginOp s).plugins ++ (beginOp s).evicted)).Nodup := by
    show (pids (s.plugins ++ [])).Nodup
    rw [List.append_nil]
    exact hwf.1.1
  obtain ⟨newEv, e1, e2, e3, e4, e5, e6, e7⟩ := reload_facts env (fun _ => true)
    [p] (beginOp s) SingleOperationResult.empty hA
    (by intro x hx; rw [List.mem_singleton.mp hx]; exact hp)
    (by simp [pids])
  rw [hcr0] at e1 e3 e4 e5 e6 e7
  simp only at e1 e3 e4 e5 e6 e7
  simp only [SingleOperationResult.empty, List.nil_append] at e3
  have hev : ∀ q ∈ s1.evicted, q.state = PluginState.unloading := by
    intro q hq
    rw [e1] at hq
    rcases List.mem_append.mp hq with h | h
    · exact absurd h (List.not_mem_nil q)
    · exact e2 q h
  have hmap : ∀ q ∈ s1.plugins, q.state = .ready ∨
      (q.state = .loaded ∧
        q.pid ∈ SingleOperationResult.empty.successList ++ reloadR.successList) := by
    intro q hq
    rcases e7 q hq with h | h
    · exact Or.inl (hwf.2 q h)
    · exact Or.inr ⟨h.1, List.mem_append_right _ h.2⟩
  have hperm : (SingleOperationResult.empty.successList ++
      SingleOperationResult.empty.failedList ++
      reloadR.failedList).Perm (pids s1.evicted) := by
    show ((([] : List Str) ++ ([] : List Str)) ++ reloadR.failedList).Perm (pids s1.evicted)
    rw [List.nil_append, List.nil_append, e1]
    show reloadR.failedList.Perm (pids ([] ++ newEv))
    rw [List.nil_append, e3]
  obtain ⟨s2, hpost, hready⟩ := post_ready env s1 SingleOperationResult.empty
    SingleOperationResult.empty reloadR e4 hev hmap hperm
  refine ⟨s2, ?_, hready⟩
  rw [reload_plugin, hcr2, hcr0]
  exact hpost

/-- __refresh_plugins on a well-formed state, for any reload filter, returns
with every map plugin READY. -/
theorem refresh_op_ready (env : Env) (s : PMState) (rfilt : Plugin → Bool)
    (hwf : WF s) :
    ∃ s4, refreshPlugins env s rfilt = some s4 ∧
      ∀ q ∈ s4.plugins, q.state = .ready := by
  rcases h10 : collect_and_process_new_plugins env (beginOp s) (fun _ => true)
    none with ⟨s1, loadR⟩
  have h12 : collect_and_process_new_plugins env (beginOp s) (fun _ => true)
      none = env.files.foldl (loadStep env (fun _ => true))
        (beginOp s, SingleOperationResult.empty) := by
    rw [collect_and_process_new_plugins]
  rw [h12] at h10
  obtain ⟨c1, c2, c3, c4, c5⟩ := collectNew_facts env (fun _ => true) env.files
    (beginOp s) SingleOperationResult.empty hwf.1.1 rfl
  rw [h10] at c1 c2 c3 c4 c5
  simp only at c1 c2 c3 c4 c5
  rcases h20 : collect_and_remove_plugins env s1
    (fun p => decide ((env.beh p.filePath).fileExists = false)) none with ⟨s2, unloadR⟩
  have h22 : collect_and_remove_plugins env s1
      (fun p => decide ((env.beh p.filePath).fileExists = false)) none =
      s1.plugins.foldl (removeStep env
        (fun p => decide ((env.beh p.filePath).fileExists = false)))
        (s1, SingleOperationResult.empty) := by
    rw [collect_and_remove_plugins]
  rw [h22] at h20
  have hA1 : (pids (s1.plugins ++ s1.evicted)).Nodup := by
    rw [pids_append, c1]
    simp only [pids, List.map_nil, List.append_nil]
    rw [pids] at c3
    exact c3
  obtain ⟨nEvU, e1, e2, e3, e4, e5, e6⟩ := collectRemove_facts env
    (fun p => decide ((env.beh p.filePath).fileExists = false)) s1.plugins s1
    SingleOperationResult.empty hA1 (fun q hq => hq) c3
  rw [h20] at e1 e3 e4 e5 e6
  simp only at e1 e3 e4 e5 e6
  simp only [SingleOperationResult.empty, List.nil_append] at e3
  rcases h30 : reload_ready_plugins env s2 rfilt none with ⟨s3, reloadR⟩
  have h32 : reload_ready_plugins env s2 rfilt none =
      s2.plugins.foldl (reloadStep env rfilt) (s2, SingleOperationResult.empty) := by
    rw [reload_ready_plugins]
  rw [h32] at h30
  have hnd2 : (pids s2.plugins).Nodup := by
    rw [pids_append] at e4
    exact (List.nodup_append.mp e4).1
  obtain ⟨nEvR, f1, f2, f3, f4, f5, f6, f7⟩ := reload_facts env rfilt s2.plugins
    s2 SingleOperationResult.empty e4 (fun q hq => hq) hnd2
  rw [h30] at f1 f3 f4 f5 f6 f7
  simp only at f1 f3 f4 f5 f6 f7
  simp only [SingleOperationResult.empty, List.nil_append] at f3
  have hev : ∀ q ∈ s3.evicted, q.state = PluginState.unloading := by
    intro q hq
    rw [f1] at hq
    rcases List.mem_append.mp hq with h | h
    · rw [e1] at h
      rcases List.mem_append.mp h with h2 | h2
      · rw [c1] at h2
        exact absurd h2 (List.not_mem_nil q)
      · exact e2 q h2
    · exact f2 q h
  have hmap : ∀ q ∈ s3.plugins, q.state = .ready ∨
      (q.state = .loaded ∧
        q.pid ∈ loadR.successList ++ reloadR.successList) := by
    intro q hq
    rcases f7 q hq with h | h
    · rcases c5 q (e5 q h) with h2 | h2
      · exact Or.inl (hwf.2 q h2)
      · exact Or.inr ⟨h2.1, List.mem_append_left _ h2.2⟩
    · exact Or.inr ⟨h.1, List.mem_append_right _ h.2⟩
  have hperm : (unloadR.successList ++ unloadR.failedList ++
      reloadR.failedList).Perm (pids s3.evicted) := by
    refine (List.Perm.append_right reloadR.failedList e3).trans ?_
    rw [f3, f1, e1, c1, List.nil_append, pids_append]
  obtain ⟨s4, hpost, hready⟩ := post_ready env s3 loadR unloadR reloadR
    f4 hev hmap hperm
  refine ⟨s4, ?_, hready⟩
  rw [refreshPlugins]
  simp only [h12, h10, h22, h20, h32, h30]
  exact hpost

/-- C1: every public plugin-manager operation (load_plugin, unload_plugin,
reload_plugin, refresh_all_plugins, refresh_changed_plugins), run on a
well-formed state, returns (no assertion fires) and afterwards every plugin
still present in the plugins map is in state READY — in particular none is
in state LOADING, LOADED or UNLOADING. -/
theorem claim_C1 (env : Env) (s : PMState) (fp : Str) (p : Plugin)
    (hwf : WF s) (hp : p ∈ s.plugins) :
    (∃ s2, load_plugin env s fp = some s2 ∧ ∀ q ∈ s2.plugins,
      q.state = .ready ∧ q.state ≠ .loading ∧ q.state ≠ .loaded ∧
        q.state ≠ .unloading) ∧
    (∃ s2, unload_plugin env s p = some s2 ∧ ∀ q ∈ s2.plugins,
      q.state = .ready ∧ q.state ≠ .loading ∧ q.state ≠ .loaded ∧
        q.state ≠ .unloading) ∧
    (∃ s2, reload_plugin env s p = some s2 ∧ ∀ q ∈ s2.plugins,
      q.state = .ready ∧ q.state ≠ .loading ∧ q.state ≠ .loaded ∧
        q.state ≠ .unloading) ∧
    (∃ s2, refresh_all_plugins env s = some s2 ∧ ∀ q ∈ s2.plugins,
      q.state = .ready ∧ q.state ≠ .loading ∧ q.state ≠ .loaded ∧
        q.state ≠ .unloading) ∧
    (∃ s2, refresh_changed_plugins env s = some s2 ∧ ∀ q ∈ s2.plugins,
      q.state = .ready ∧ q.state ≠ .loading ∧ q.state ≠ .loaded ∧
        q.state ≠ .unloading) := by
  have wrap : ∀ (t : PMState), (∀ q ∈ t.plugins, q.state = .ready) →
      ∀ q ∈ t.plugins, q.state = .ready ∧ q.state ≠ .loading ∧
        q.state ≠ .loaded ∧ q.state ≠ .unloading := by
    intro t h q hq
    have h2 := h q hq
    refine ⟨h2, ?_, ?_, ?_⟩ <;> rw [h2] <;> simp
  refine ⟨?_, ?_, ?_, ?_, ?_⟩
  · obtain ⟨s2, h, hr⟩ := load_op_ready env s fp hwf
    exact ⟨s2, h, wrap s2 hr⟩
  · obtain ⟨s2, h, hr⟩ := unload_op_ready env s p hwf hp
    exact ⟨s2, h, wrap s2 hr⟩
  · obtain ⟨s2, h, hr⟩ := reload_op_ready env s p hwf hp
    exact ⟨s2, h, wrap s2 hr⟩
  · obtain ⟨s2, h, hr⟩ := refresh_op_ready env s (fun _ => true) hwf
    rw [refresh_all_plugins]
    exact ⟨s2, h, wrap s2 hr⟩
  · obtain ⟨s2, h, hr⟩ := refresh_op_ready env s
      (fun p => (env.beh p.filePath).fileChanged) hwf
    rw [refresh_changed_plugins]
    exact ⟨s2, h, wrap s2 hr⟩

theorem claim_C1_witness :
    (∃ s2, load_plugin c5env c5state ("b.py".toList) = some s2 ∧
      ∀ q ∈ s2.plugins, q.state = .ready ∧ q.state ≠ .loading ∧
        q.state ≠ .loaded ∧ q.state ≠ .unloading) ∧
    (∃ s2, unload_plugin c5env c5state
        ⟨"a".toList, "a.py".toList, .ready⟩ = some s2 ∧
      ∀ q ∈ s2.plugins, q.state = .ready ∧ q.state ≠ .loading ∧
        q.state ≠ .loaded ∧ q.state ≠ .unloading) ∧
    (∃ s2, reload_plugin c5env c5state
        ⟨"a".toList, "a.py".toList, .ready⟩ = some s2 ∧
      ∀ q ∈ s2.plugins, q.state = .ready ∧ q.state ≠ .loading ∧
        q.state ≠ .loaded ∧ q.state ≠ .unloading) ∧
    (∃ s2, refresh_all_plugins c5env c5state = some s2 ∧
      ∀ q ∈ s2.plugins, q.state = .ready ∧ q.state ≠ .loading ∧
        q.state ≠ .loaded ∧ q.state ≠ .unloading) ∧
    (∃ s2, refresh_changed_plugins c5env c5state = some s2 ∧
      ∀ q ∈ s2.plugins, q.state = .ready ∧ q.state ≠ .loading ∧
        q.state ≠ .loaded ∧ q.state ≠ .unloading) :=
  claim_C1 c5env c5state ("b.py".toList) ⟨"a".toList, "a.py".toList, .ready⟩
    (by decide) (by decide)

end MCDR
